import Mathlib

/-!
Verification development for the kernel-creation front end
(src/loopy/kernel/creation.py and src/loopy/library/function.py).

The Python source is shallowly embedded: each Python function becomes a
Lean definition of the same name working over explicit data.  Python
dictionaries are modelled as association lists (first match wins on
lookup, insertion overwrites in place or appends), Python strings as
Lean strings over their character lists, and fallible code returns
Except.  Collaborator code that lives outside the two source files
(the isl set library, the kernel data classes) is modelled from the
specification; every such definition is marked in its doc comment.
-/

namespace Loopy

/-! ## Errors raised by the construction pipeline -/

/-- Structured stand-in for the RuntimeError and ValueError messages the
source raises; each constructor records the data interpolated into the
corresponding message. -/
inductive Err where
  | multi_valued_define (word : String)
  | domain_parse_fail (dom : String)
  | unnamed_dim (dom_index : Nat)
  | redefined_iname (iname : String)
  | reduction_parallel_iname (iname : String)
  | multiple_writes (par : String) (count : Nat)
  | duplicate_name (name role1 role2 : String)
  | nonexistent_iname_dep (insn_id : Option String)
  | not_declared (var : String)
  | at_iname_duplication (iname : String)
  | temp_already_exists (name : String)
  | temp_already_exists_as_arg (name : String)
  | bad_lvalue_index (name : String)
  | invalid_assignee
  deriving DecidableEq, Repr

/-! ## Character classes and scanning primitives

The source uses three regular expressions over raw text:
WORD_RE matching [a-zA-Z0-9_]+ word runs with boundaries,
BRACE_RE matching dollar-brace wrapped word runs, and
_IDENTIFIER_RE matching [a-zA-Z_][a-zA-Z0-9_]* identifiers.
They are embedded as left-to-right scans over character lists, exactly
mirroring the semantics of re.finditer and re.sub for these patterns. -/

/-- Membership in the character class [a-zA-Z0-9_] used by WORD_RE and
by the tail of _IDENTIFIER_RE. -/
def isWordChar (c : Char) : Bool :=
  ('a' ≤ c && c ≤ 'z') || ('A' ≤ c && c ≤ 'Z') || ('0' ≤ c && c ≤ '9') || c = '_'

/-- Membership in the character class [a-zA-Z_] that starts an
_IDENTIFIER_RE match. -/
def isIdentStartChar (c : Char) : Bool :=
  ('a' ≤ c && c ≤ 'z') || ('A' ≤ c && c ≤ 'Z') || c = '_'

/-- The scanning loop behind the WORD_RE captures: the accumulator
carries the reversed characters of the word run being read. -/
def wordFindsAux (cur : List Char) : List Char → List String
  | [] => if cur.isEmpty then [] else [String.mk cur.reverse]
  | c :: rest =>
    if isWordChar c then wordFindsAux (c :: cur) rest
    else if cur.isEmpty then wordFindsAux [] rest
    else String.mk cur.reverse :: wordFindsAux [] rest

/-- All group-1 captures of re.finditer with WORD_RE, in match order:
the maximal nonempty runs of word characters. -/
def wordFinds (s : List Char) : List String := wordFindsAux [] s

/-- The scanning loop behind the _IDENTIFIER_RE captures.  A word run
starting with a digit matches nowhere inside the run (no position in it
has a word boundary followed by a letter or underscore), so the whole
run is skipped: the skipping flag records being inside such a run. -/
def identFindsAux (cur : List Char) (skipping : Bool) : List Char → List String
  | [] => if cur.isEmpty then [] else [String.mk cur.reverse]
  | c :: rest =>
    if skipping then identFindsAux [] (isWordChar c) rest
    else if cur.isEmpty then
      if isIdentStartChar c then identFindsAux [c] false rest
      else if isWordChar c then identFindsAux [] true rest
      else identFindsAux [] false rest
    else
      if isWordChar c then identFindsAux (c :: cur) false rest
      else String.mk cur.reverse :: identFindsAux [] false rest

/-- All group-1 captures of re.finditer with _IDENTIFIER_RE, in match
order. -/
def identFinds (s : List Char) : List String := identFindsAux [] false s

/-- Scanner state for BRACE_RE: outside any candidate, after a dollar,
or inside the braces having read the reversed characters of the word.
Because a dollar can only start a match and neither brace nor word
characters are dollars, rejecting a candidate never needs to re-read
more than the current character. -/
inductive BraceScan where
  | outside
  | sawDollar
  | inBrace (cur : List Char)
  deriving DecidableEq, Repr

/-- The scanning loop behind the BRACE_RE captures. -/
def braceFindsAux : BraceScan → List Char → List String
  | _, [] => []
  | .outside, c :: rest =>
    braceFindsAux (if c = '$' then .sawDollar else .outside) rest
  | .sawDollar, c :: rest =>
    braceFindsAux (if c = '{' then .inBrace [] else if c = '$' then .sawDollar else .outside)
      rest
  | .inBrace cur, c :: rest =>
    if isWordChar c then braceFindsAux (.inBrace (c :: cur)) rest
    else if c = '}' && !cur.isEmpty then
      String.mk cur.reverse :: braceFindsAux .outside rest
    else braceFindsAux (if c = '$' then .sawDollar else .outside) rest

/-- All group-1 captures of re.finditer with BRACE_RE, in match order,
scanning left to right without overlap. -/
def braceFinds (s : List Char) : List String := braceFindsAux .outside s

/-- Test whether the first list is an initial segment of the second. -/
def beginsWith : List Char → List Char → Bool
  | [], _ => true
  | _ :: _, [] => false
  | a :: w, b :: s => a = b && beginsWith w s

/-- Test for a whole-word match at the head of the input: the word is an
initial segment and the character following it, if any, is not a word
character (the trailing word boundary of a bare-identifier pattern). -/
def wordMatchAt (w s : List Char) : Bool :=
  beginsWith w s &&
    (match s.drop w.length with
     | [] => true
     | c :: _ => !isWordChar c)

/-- Semantics of re.sub with a bare-identifier pattern (the word wrapped
in boundaries): scan left to right; at a position preceded by a non-word
character (or the start) where the whole word matches, emit the
replacement and resume after the matched region of the original text;
otherwise emit the character and move on.  The boolean argument records
whether the previously scanned character of the original text was a
word character.  The fuel bounds the recursion; every step consumes at
least one character, so the length of the text (supplied by the
wrapper) is always enough. -/
def subWordFuel (w repl : List Char) : Nat → Bool → List Char → List Char
  | 0, _, s => s
  | fuel + 1, prevWord, s =>
    match s with
    | [] => []
    | c :: rest =>
      if w ≠ [] ∧ prevWord = false ∧ wordMatchAt w (c :: rest) = true then
        repl ++ subWordFuel w repl fuel true ((c :: rest).drop w.length)
      else
        c :: subWordFuel w repl fuel (isWordChar c) rest

/-- The re.sub of a boundary-wrapped bare word. -/
def subWord (w repl : List Char) (prevWord : Bool) (s : List Char) : List Char :=
  subWordFuel w repl s.length prevWord s

/-- Semantics of re.sub with a dollar-brace pattern: replace every
occurrence of the bracketed placeholder, scanning left to right and
resuming after each matched region, with fuel as above. -/
def subBraceFuel (w repl : List Char) : Nat → List Char → List Char
  | 0, s => s
  | fuel + 1, s =>
    match s with
    | [] => []
    | c :: rest =>
      if beginsWith ('$' :: '{' :: (w ++ ['}'])) (c :: rest) then
        repl ++ subBraceFuel w repl fuel ((c :: rest).drop (w.length + 3))
      else
        c :: subBraceFuel w repl fuel rest

/-- The re.sub of a dollar-brace placeholder. -/
def subBrace (w repl s : List Char) : List Char :=
  subBraceFuel w repl s.length s

/-! ## Macro expansion over raw text (expand_defines) -/

/-- Value bound to a macro name: a single value or a list of values. -/
inductive MacroVal where
  | one (v : String)
  | many (vs : List String)
  deriving DecidableEq, Repr

/-- A compiled substitution pattern, as built by the replace_pattern
templates of expand_defines: either the dollar-brace form of a word or
the boundary-wrapped bare form of a word. -/
inductive Pat where
  | braceP (w : String)
  | wordP (w : String)
  deriving DecidableEq, Repr

/-- One re.sub application of a compiled pattern and its replacement
value to the running text. -/
def applyPat (s : String) : Pat × String → String
  | (.braceP w, v) => String.mk (subBrace w.data v.data s.data)
  | (.wordP w, v) => String.mk (subWord w.data v.data false s.data)

/-- The inner loop of expand_defines for one of the two regular
expressions: walk the match captures in order; an undefined word is
skipped; a single-valued definition extends every pending replacement
tuple; a list-valued definition is fatal in single-valued mode and
otherwise forks every pending replacement tuple once per list element. -/
def scanMatches (mk : String → Pat) (defines : String → Option MacroVal)
    (single_valued : Bool) :
    List (List (Pat × String)) → List String → Except Err (List (List (Pat × String)))
  | reps, [] => .ok reps
  | reps, w :: ws =>
    match defines w with
    | none => scanMatches mk defines single_valued reps ws
    | some (.one v) =>
        scanMatches mk defines single_valued (reps.map (fun rep => rep ++ [(mk w, v)])) ws
    | some (.many vs) =>
        if single_valued then .error (.multi_valued_define w)
        else
          scanMatches mk defines single_valued
            (reps.flatMap (fun rep => vs.map (fun v => rep ++ [(mk w, v)]))) ws

/-- Embedding of expand_defines: collect the replacement tuples from the
dollar-brace matches of the original text and then from the bare-word
matches of the original text, and yield, for every replacement tuple,
the result of applying its substitutions to the text in order. -/
def expand_defines (insn : String) (defines : String → Option MacroVal)
    (single_valued : Bool) : Except Err (List String) := do
  let reps1 ← scanMatches Pat.braceP defines single_valued [[]] (braceFinds insn.data)
  let reps2 ← scanMatches Pat.wordP defines single_valued reps1 (wordFinds insn.data)
  .ok (reps2.map (fun rep => rep.foldl applyPat insn))

/-! ## Association lists modelling Python dictionaries

Lookup returns the first binding of a key; assignment overwrites an
existing binding in place and otherwise appends, as Python dictionary
assignment does (insertion order preserved). -/

/-- First binding of a key, like a Python dictionary read. -/
def alookup {K V : Type} [DecidableEq K] : List (K × V) → K → Option V
  | [], _ => none
  | (k, v) :: m, key => if key = k then some v else alookup m key

/-- Python dictionary assignment: overwrite in place or append. -/
def aset {K V : Type} [DecidableEq K] (m : List (K × V)) (k : K) (v : V) : List (K × V) :=
  if (alookup m k).isSome then m.map (fun kv => if kv.1 = k then (k, v) else kv)
  else m ++ [(k, v)]

theorem alookup_append {K V : Type} [DecidableEq K] (m1 m2 : List (K × V)) (k : K) :
    alookup (m1 ++ m2) k = ((alookup m1 k).or (alookup m2 k)) := by
  induction m1 with
  | nil => simp [alookup]
  | cons kv m ih =>
    obtain ⟨k1, v1⟩ := kv
    by_cases h : k = k1 <;> simp [alookup, h, ih]

theorem alookup_mapReplace_self {K V : Type} [DecidableEq K] (m : List (K × V)) (k : K) (v : V)
    (hs : (alookup m k).isSome = true) :
    alookup (m.map (fun kv => if kv.1 = k then (k, v) else kv)) k = some v := by
  induction m with
  | nil => simp [alookup] at hs
  | cons kv m ih =>
    obtain ⟨k1, v1⟩ := kv
    by_cases hk : k1 = k
    · subst hk
      simp only [List.map_cons]
      simp [alookup]
    · simp only [List.map_cons, if_neg hk]
      have hne : k ≠ k1 := fun hh => hk hh.symm
      simp only [alookup, if_neg hne] at hs ⊢
      exact ih hs

theorem alookup_mapReplace_ne {K V : Type} [DecidableEq K] (m : List (K × V)) (k k2 : K) (v : V)
    (h : k2 ≠ k) :
    alookup (m.map (fun kv => if kv.1 = k then (k, v) else kv)) k2 = alookup m k2 := by
  induction m with
  | nil => simp
  | cons kv m ih =>
    obtain ⟨k1, v1⟩ := kv
    by_cases hk : k1 = k
    · subst hk
      simp only [List.map_cons, if_pos rfl]
      simp only [alookup, if_neg h, if_neg (fun hh => h hh)]
      exact ih
    · simp only [List.map_cons, if_neg hk]
      by_cases h2 : k2 = k1 <;> simp [alookup, h2, ih]

theorem alookup_aset_self {K V : Type} [DecidableEq K] (m : List (K × V)) (k : K) (v : V) :
    alookup (aset m k v) k = some v := by
  unfold aset
  split
  · exact alookup_mapReplace_self m k v (by assumption)
  · rw [alookup_append]
    have hnone : alookup m k = none := by
      rename_i hs
      cases hh : alookup m k
      · rfl
      · rw [hh] at hs; simp at hs
    simp [hnone, alookup]

theorem alookup_aset_ne {K V : Type} [DecidableEq K] (m : List (K × V)) (k k2 : K) (v : V)
    (h : k2 ≠ k) : alookup (aset m k v) k2 = alookup m k2 := by
  unfold aset
  split
  · exact alookup_mapReplace_ne m k k2 v h
  · rw [alookup_append]
    simp [alookup, if_neg h]

/-- Keys of an association list in order. -/
def akeys {K V : Type} (m : List (K × V)) : List K := m.map (·.1)

theorem alookup_eq_none_iff {K V : Type} [DecidableEq K] (m : List (K × V)) (k : K) :
    alookup m k = none ↔ k ∉ akeys m := by
  induction m with
  | nil => simp [alookup, akeys]
  | cons kv m ih =>
    obtain ⟨k1, v1⟩ := kv
    by_cases h : k = k1 <;> simp [alookup, akeys, h] at ih ⊢ <;> simp [ih]

theorem alookup_isSome_iff {K V : Type} [DecidableEq K] (m : List (K × V)) (k : K) :
    (alookup m k).isSome = true ↔ k ∈ akeys m := by
  rw [← Decidable.not_iff_not]
  simp [← alookup_eq_none_iff m k, Option.isSome_iff_exists]
  cases alookup m k <;> simp

theorem akeys_aset {K V : Type} [DecidableEq K] (m : List (K × V)) (k : K) (v : V) :
    akeys (aset m k v) = if (alookup m k).isSome then akeys m else akeys m ++ [k] := by
  unfold aset
  split
  · unfold akeys
    rw [List.map_map]
    apply List.map_congr_left
    intro kv _
    by_cases hk : kv.1 = k <;> simp [hk]
  · simp [akeys]

theorem akeys_aset_nodup {K V : Type} [DecidableEq K] (m : List (K × V)) (k : K) (v : V)
    (h : (akeys m).Nodup) : (akeys (aset m k v)).Nodup := by
  rw [akeys_aset]
  split
  · exact h
  · rename_i hs
    have : k ∉ akeys m := by
      rw [← alookup_eq_none_iff]
      cases hh : alookup m k
      · rfl
      · rw [hh] at hs; simp at hs
    simp [List.nodup_append, h, this]

theorem alookup_foldl_aset {K V : Type} [DecidableEq K] (pairs : List (K × V)) :
    ∀ (tags : List (K × V)), (akeys pairs).Nodup → ∀ j,
      alookup (pairs.foldl (fun m kv => aset m kv.1 kv.2) tags) j
        = (alookup pairs j).or (alookup tags j) := by
  induction pairs with
  | nil => intro tags _ j; simp [alookup]
  | cons kv rest ih =>
    intro tags hnd j
    obtain ⟨k, v⟩ := kv
    simp only [List.foldl_cons]
    have hkeys : akeys ((k, v) :: rest) = k :: akeys rest := by simp [akeys]
    rw [hkeys] at hnd
    have hnd2 : (akeys rest).Nodup := (List.nodup_cons.mp hnd).2
    have hknot : k ∉ akeys rest := (List.nodup_cons.mp hnd).1
    rw [ih (aset tags k v) hnd2 j]
    by_cases hj : j = k
    · subst hj
      have hnone : alookup rest j = none := (alookup_eq_none_iff rest j).mpr hknot
      simp [hnone, alookup, alookup_aset_self]
    · simp [alookup, hj, alookup_aset_ne tags k j v hj]

/-- The loop behind dedupKeepFirst, carrying the elements seen so far. -/
def dedupKeepFirstAux (seen : List String) : List String → List String
  | [] => []
  | x :: xs =>
    if seen.contains x then dedupKeepFirstAux seen xs
    else x :: dedupKeepFirstAux (seen ++ [x]) xs

/-- Remove duplicates keeping the first occurrence of each element, the
deterministic stand-in for iterating a Python set built from a scan. -/
def dedupKeepFirst (l : List String) : List String := dedupKeepFirstAux [] l

/-! ## Unique name generation -/

/-- Decimal digits of a number, least significant first, by repeated
division; the fuel bounds the loop, and any amount at least the number
itself is enough. -/
def natDigitsFuel : Nat → Nat → List Nat
  | 0, _ => []
  | _ + 1, 0 => []
  | fuel + 1, n => (n % 10) :: natDigitsFuel fuel (n / 10)

/-- Decimal rendering of a natural number, the digits of the percent-d
formatting used by generate_unique_possibilities. -/
def natDecimal (n : Nat) : String :=
  if n = 0 then "0" else String.mk (((natDigitsFuel n n).map Nat.digitChar).reverse)

theorem natDigitsFuel_eq_digits : ∀ (fuel n : Nat), n ≤ fuel →
    natDigitsFuel fuel n = Nat.digits 10 n := by
  intro fuel
  induction fuel with
  | zero =>
    intro n hn
    interval_cases n
    simp [natDigitsFuel]
  | succ fuel ih =>
    intro n hn
    match n with
    | 0 => simp [natDigitsFuel]
    | m + 1 =>
      rw [Nat.digits_def' (by norm_num : 1 < 10) (Nat.succ_pos m)]
      simp only [natDigitsFuel]
      rw [ih ((m + 1) / 10) (by
        have := Nat.div_lt_self (Nat.succ_pos m) (by norm_num : 1 < 10)
        omega)]

theorem digitChar_inj (a b : Nat) (ha : a < 10) (hb : b < 10)
    (h : Nat.digitChar a = Nat.digitChar b) : a = b := by
  interval_cases a <;> interval_cases b <;> revert h <;> decide

theorem map_digitChar_inj (l1 : List Nat) : ∀ (l2 : List Nat), (∀ x ∈ l1, x < 10) →
    (∀ x ∈ l2, x < 10) → l1.map Nat.digitChar = l2.map Nat.digitChar → l1 = l2 := by
  induction l1 with
  | nil =>
    intro l2 _ _ h
    cases l2 <;> simp_all
  | cons a l ih =>
    intro l2 h1 h2 h
    cases l2 with
    | nil => simp at h
    | cons b l2 =>
      simp only [List.map_cons, List.cons.injEq] at h
      have := digitChar_inj a b (h1 a (by simp)) (h2 b (by simp)) h.1
      subst this
      rw [ih l2 (fun x hx => h1 x (by simp [hx])) (fun x hx => h2 x (by simp [hx])) h.2]

theorem natDecimal_data (n : Nat) (hn : n ≠ 0) :
    (natDecimal n).data = ((Nat.digits 10 n).map Nat.digitChar).reverse := by
  unfold natDecimal
  rw [if_neg hn, natDigitsFuel_eq_digits n n (le_refl n)]

theorem natDecimal_inj : Function.Injective natDecimal := by
  intro m n h
  have key : ∀ a : Nat, a ≠ 0 → natDecimal a = "0" → False := by
    intro a ha hs
    have hd : ((Nat.digits 10 a).map Nat.digitChar).reverse = ['0'] := by
      have := congrArg String.data hs
      rw [natDecimal_data a ha] at this
      simpa using this
    have hd2 : (Nat.digits 10 a).map Nat.digitChar = ['0'] := by
      have := congrArg List.reverse hd
      simpa using this
    have hdig : Nat.digits 10 a = [0] := by
      apply map_digitChar_inj
      · intro x hx
        exact Nat.digits_lt_base (by norm_num) hx
      · simp
      · simpa using hd2
    have h0 := Nat.ofDigits_digits 10 a
    rw [hdig] at h0
    simp [Nat.ofDigits] at h0
    exact ha h0.symm
  by_cases hm : m = 0 <;> by_cases hn : n = 0
  · rw [hm, hn]
  · subst hm
    have h2 : natDecimal n = "0" := by rw [← h]; simp [natDecimal]
    exact ((key n hn h2).elim)
  · subst hn
    have h2 : natDecimal m = "0" := by rw [h]; simp [natDecimal]
    exact ((key m hm h2).elim)
  · have hd : ((Nat.digits 10 m).map Nat.digitChar).reverse
        = ((Nat.digits 10 n).map Nat.digitChar).reverse := by
      have := congrArg String.data h
      rw [natDecimal_data m hm, natDecimal_data n hn] at this
      exact this
    have hd2 : (Nat.digits 10 m).map Nat.digitChar = (Nat.digits 10 n).map Nat.digitChar := by
      have := congrArg List.reverse hd
      simpa using this
    have hdig : Nat.digits 10 m = Nat.digits 10 n := by
      apply map_digitChar_inj
      · intro x hx
        exact Nat.digits_lt_base (by norm_num) hx
      · intro x hx
        exact Nat.digits_lt_base (by norm_num) hx
      · exact hd2
    calc m = Nat.ofDigits 10 (Nat.digits 10 m) := (Nat.ofDigits_digits 10 m).symm
    _ = Nat.ofDigits 10 (Nat.digits 10 n) := by rw [hdig]
    _ = n := Nat.ofDigits_digits 10 n

/-- The candidate names tried by generate_unique_possibilities, cut off
after the given number of numbered candidates: the bare prefix first,
then the prefix with an underscore and a counter. -/
def generate_unique_possibilities (prefx : String) (bound : Nat) : List String :=
  prefx :: (List.range bound).map (fun k => prefx ++ "_" ++ natDecimal k)

theorem natDecimal_ne_empty (n : Nat) : (natDecimal n).data ≠ [] := by
  by_cases hn : n = 0
  · subst hn
    simp [natDecimal]
  · rw [natDecimal_data n hn]
    have : Nat.digits 10 n ≠ [] := Nat.digits_ne_nil_iff_ne_zero.mpr hn
    simpa using this

theorem gup_nodup (prefx : String) (bound : Nat) :
    (generate_unique_possibilities prefx bound).Nodup := by
  unfold generate_unique_possibilities
  refine List.Nodup.cons ?_ ?_
  · intro hmem
    simp only [List.mem_map, List.mem_range] at hmem
    obtain ⟨k, _, hk⟩ := hmem
    have := congrArg (fun s => s.data.length) hk
    simp only [String.data_append] at this
    have hne := natDecimal_ne_empty k
    simp only [List.length_append] at this
    cases hd : (natDecimal k).data with
    | nil => exact hne hd
    | cons c l => rw [hd] at this; simp at this; omega
  · refine List.Nodup.map ?_ (List.nodup_range bound)
    intro a b hab
    have hd : (natDecimal a).data = (natDecimal b).data := by
      have := congrArg String.data hab
      simp only [String.data_append] at this
      simpa using this
    exact natDecimal_inj (by cases hda : natDecimal a <;> cases hdb : natDecimal b <;>
      simp_all)

/-- Embedding of the UniqueNameGenerator call operator: return the first
candidate that does not conflict with the existing names.  The candidate
list is cut off one past the number of existing names, which always
contains a free candidate, so the cutoff is unobservable. -/
def freshName (existing : List String) (prefx : String) : String :=
  match (generate_unique_possibilities prefx (existing.length + 1)).find?
      (fun c => !existing.contains c) with
  | some c => c
  | none => prefx

theorem freshName_not_mem (existing : List String) (prefx : String) :
    freshName existing prefx ∉ existing := by
  unfold freshName
  cases hf : (generate_unique_possibilities prefx (existing.length + 1)).find?
      (fun c => !existing.contains c) with
  | some c =>
    have := List.find?_some hf
    simp only [Bool.not_eq_true'] at this
    simpa using this
  | none =>
    exfalso
    rw [List.find?_eq_none] at hf
    have hsub : ∀ c ∈ generate_unique_possibilities prefx (existing.length + 1),
        c ∈ existing := by
      intro c hc
      have := hf c hc
      simpa using this
    have hlen : (generate_unique_possibilities prefx (existing.length + 1)).length
        = existing.length + 2 := by
      simp [generate_unique_possibilities]
    have hcard1 : (generate_unique_possibilities prefx (existing.length + 1)).toFinset.card
        = existing.length + 2 := by
      rw [List.toFinset_card_of_nodup (gup_nodup _ _), hlen]
    have hcard2 : existing.toFinset.card ≤ existing.length := List.toFinset_card_le existing
    have hsub2 : (generate_unique_possibilities prefx (existing.length + 1)).toFinset
        ⊆ existing.toFinset := by
      intro c hc
      rw [List.mem_toFinset] at hc ⊢
      exact hsub c hc
    have := Finset.card_le_card hsub2
    omega

/-! ## Expression trees and kernel data model

The expression constructors cover the pymbolic node kinds the
construction pipeline inspects: variables, integer literals, sums,
products, indexed references (with tuples of indices), reduction nodes
and tagged common-subexpression nodes (a TypedCSE carries a dtype).
The kernel data classes live outside the two source files and are
modelled from the specification where noted. -/

/-- A declared temporary element type: the deferred infer_type sentinel
of the source, or a concrete numpy dtype identified by its name. -/
inductive TempDType where
  | infer
  | concrete (dtype : String)
  deriving DecidableEq, Repr

inductive Expr where
  | var (name : String)
  | lit (n : Int)
  | add (a b : Expr)
  | mul (a b : Expr)
  | subscript (agg idx : Expr)
  | tup (a b : Expr)
  | reduction (op : String) (inames : List String) (body : Expr)
  | cse (child : Expr) (prefx : Option String) (dtype : Option String)
  deriving DecidableEq, Repr

/-- One assignment instruction (loopy.kernel.data.Instruction). -/
structure Instruction where
  id : Option String
  insn_deps : List String
  forced_iname_deps : List String
  assignee : Expr
  expression : Expr
  temp_var_type : Option TempDType
  priority : Int
  deriving DecidableEq, Repr

/-- A named, optionally parametrized macro over an expression
(loopy.kernel.data.SubstitutionRule). -/
structure SubstitutionRule where
  name : String
  arguments : List String
  expression : Expr
  deriving DecidableEq, Repr

/-- Modelled from the spec: compiler-managed scratch storage with a
name, an element type (concrete or deferred), a locality marker, and a
storage shape with base-index offsets. -/
structure TemporaryVariable where
  name : String
  dtype : TempDType
  is_local : Option Bool
  base_indices : List Int
  shape : List Nat
  deriving DecidableEq, Repr

/-- A kernel argument; only its name matters to the embedded passes. -/
structure KernelArg where
  name : String
  deriving DecidableEq, Repr

/-- An iname tag: a data-parallel tag (any ParallelTag subclass,
identified by its kind), the ForceSequentialTag, or any other tag. -/
inductive InameTag where
  | parallel (kind : String)
  | force_sequential
  | other (kind : String)
  deriving DecidableEq, Repr

/-- The isinstance test against ParallelTag. -/
def InameTag.isParallel : InameTag → Bool
  | .parallel _ => true
  | _ => false

/-- Modelled from the spec: a named polyhedral set, reduced to the data
the construction pipeline reads from it: its dimension names (an
unnamed dimension is None) and its parameter names. -/
structure BasicSetModel where
  dim_names : List (Option String)
  param_names : List String
  deriving DecidableEq, Repr

/-- The aggregate kernel IR (loopy.kernel.LoopKernel), reduced to the
fields the embedded passes read and write. -/
structure LoopKernel where
  domains : List BasicSetModel
  instructions : List Instruction
  args : List KernelArg
  temporary_variables : List (String × TemporaryVariable)
  substitutions : List (String × SubstitutionRule)
  iname_to_tag : List (String × InameTag)
  deriving DecidableEq, Repr

/-- The loop indexes of the kernel: the named dimensions of its domains
(the all_inames accessor). -/
def LoopKernel.all_inames (knl : LoopKernel) : List String :=
  knl.domains.flatMap (fun d => d.dim_names.filterMap id)

/-- Modelled from the spec: the written variable of an assignee, the
variable itself or the root variable of an indexed reference (the
get_assignee_var_name accessor, which lives outside the two source
files). -/
def getAssigneeVarName : Expr → Option String
  | .var n => some n
  | .subscript (.var n) _ => some n
  | _ => none

/-- Components of a pymbolic index: a tuple node contributes its
elements in order, any other node is a single index. -/
def tupleComponents : Expr → List Expr
  | .tup a b => a :: tupleComponents b
  | e => [e]

/-- Modelled from the spec: the index expressions of an assignee (the
get_assignee_indices accessor); a plain variable has none. -/
def getAssigneeIndices : Expr → List Expr
  | .subscript _ idx => tupleComponents idx
  | _ => []

/-- The loop indexes collected by ReductionCallbackMapper with the
callback that first recurses into the reduction body and then records
the index set of the reduction node, over a whole expression tree. -/
def exprReductionInames : Expr → List String
  | .var _ => []
  | .lit _ => []
  | .add a b => exprReductionInames a ++ exprReductionInames b
  | .mul a b => exprReductionInames a ++ exprReductionInames b
  | .subscript a b => exprReductionInames a ++ exprReductionInames b
  | .tup a b => exprReductionInames a ++ exprReductionInames b
  | .reduction _ inames body => exprReductionInames body ++ inames
  | .cse child _ _ => exprReductionInames child

/-- Test for a plain variable node, the isinstance check against
Variable. -/
def Expr.isVar : Expr → Bool
  | .var _ => true
  | _ => false

/-- The reduction loop indexes collected by the scan of
tag_reduction_inames_as_sequential: those of every instruction
expression (substitution rules are not visited there). -/
def kernelReductionInames (knl : LoopKernel) : List String :=
  knl.instructions.flatMap (fun insn => exprReductionInames insn.expression)

/-- The reduction loop indexes visited by
check_for_reduction_inames_duplication_requests: those of every
instruction expression and of every substitution rule expression. -/
def reductionInamesEverywhere (knl : LoopKernel) : List String :=
  knl.instructions.flatMap (fun insn => exprReductionInames insn.expression)
    ++ knl.substitutions.flatMap (fun s => exprReductionInames s.2.expression)

/-! ## Reduction-sequencing pass -/

/-- Modelled from the spec: the tag_inames transformation invoked at the
end of the reduction-sequencing pass; the collected tags are applied
once, as a single functional update of the iname-to-tag mapping. -/
def tag_inames (knl : LoopKernel) (new_tags : List (String × InameTag)) : LoopKernel :=
  { knl with iname_to_tag := new_tags.foldl (fun m kv => aset m kv.1 kv.2) knl.iname_to_tag }

/-- The scanning loop of tag_reduction_inames_as_sequential: for every
collected reduction loop index, an existing parallel tag is fatal, a
missing tag schedules a forced-sequential tag in the pending update. -/
def scanReductionInames (knl : LoopKernel) :
    List String → List (String × InameTag) → Except Err (List (String × InameTag))
  | [], acc => .ok acc
  | iname :: rest, acc =>
    match alookup knl.iname_to_tag iname with
    | some t =>
      if t.isParallel then .error (.reduction_parallel_iname iname)
      else scanReductionInames knl rest acc
    | none => scanReductionInames knl rest (aset acc iname .force_sequential)

/-- Embedding of tag_reduction_inames_as_sequential: collect the
reduction loop indexes of every instruction expression, scan them
against the existing tags, and apply the pending tags in one kernel
update. -/
def tag_reduction_inames_as_sequential (knl : LoopKernel) : Except Err LoopKernel := do
  let new_iname_to_tag ← scanReductionInames knl (kernelReductionInames knl) []
  .ok (tag_inames knl new_iname_to_tag)

/-! ## Sanity checking passes -/

/-- The add_name loop of check_for_duplicate_names: record every name
with its role and fail on the first name seen twice. -/
def addNamesCheck : List (String × String) → List (String × String) → Except Err Unit
  | [], _ => .ok ()
  | (n, role) :: rest, seen =>
    match alookup seen n with
    | some role0 => .error (.duplicate_name n role role0)
    | none => addNamesCheck rest (aset seen n role)

/-- Embedding of check_for_duplicate_names over the four namespaces in
source order: inames, arguments, temporaries, substitutions. -/
def check_for_duplicate_names (knl : LoopKernel) : Except Err Unit :=
  addNamesCheck
    (knl.all_inames.map (fun n => (n, "iname"))
      ++ knl.args.map (fun a => (a.name, "argument"))
      ++ (akeys knl.temporary_variables).map (fun n => (n, "temporary"))
      ++ (akeys knl.substitutions).map (fun n => (n, "substitution"))) []

/-- Embedding of check_for_nonexistent_iname_deps: every forced iname
dependency of every instruction must be a kernel iname. -/
def check_for_nonexistent_iname_deps (knl : LoopKernel) : Except Err Unit :=
  match knl.instructions.find? (fun insn =>
      !insn.forced_iname_deps.all (fun i => knl.all_inames.contains i)) with
  | some insn => .error (.nonexistent_iname_dep insn.id)
  | none => .ok ()

/-- Modelled from the spec: the writer map of the kernel (outside the
two source files) sends a variable name to the instructions whose
assignee writes that variable. -/
def writersOf (knl : LoopKernel) (v : String) : List Instruction :=
  knl.instructions.filter (fun insn => getAssigneeVarName insn.assignee = some v)

/-- The temporary variables that also occur as parameters of some
domain of the kernel (data-dependent bounds). -/
def temp_var_domain_parameters (knl : LoopKernel) : List String :=
  dedupKeepFirst ((akeys knl.temporary_variables).filter
    (fun n => (knl.domains.flatMap (fun d => d.param_names)).contains n))

/-- Embedding of check_for_multiple_writes_to_loop_bounds: every
data-dependent domain parameter must have exactly one writer. -/
def check_for_multiple_writes_to_loop_bounds (knl : LoopKernel) : Except Err Unit :=
  match (temp_var_domain_parameters knl).find?
      (fun v => !((writersOf knl v).length == 1)) with
  | some v => .error (.multiple_writes v (writersOf knl v).length)
  | none => .ok ()

/-- The instruction loop of check_written_variable_names. -/
def checkWrittenLoop (admissible : List String) : List Instruction → Except Err Unit
  | [] => .ok ()
  | insn :: rest =>
    match getAssigneeVarName insn.assignee with
    | none => .error .invalid_assignee
    | some n =>
      if admissible.contains n then checkWrittenLoop admissible rest
      else .error (.not_declared n)

/-- Embedding of check_written_variable_names: every written variable
must be a declared argument or an existing temporary. -/
def check_written_variable_names (knl : LoopKernel) : Except Err Unit :=
  checkWrittenLoop (knl.args.map (fun a => a.name) ++ akeys knl.temporary_variables)
    knl.instructions

/-- The startswith test against the at-sign. -/
def startsWithAtSign (s : String) : Bool :=
  match s.data with
  | '@' :: _ => true
  | _ => false

/-- Embedding of check_for_reduction_inames_duplication_requests: a
reduction loop index starting with an at-sign, in any instruction or in
any substitution rule expression, is fatal. -/
def check_for_reduction_inames_duplication_requests (knl : LoopKernel) : Except Err Unit :=
  match (reductionInamesEverywhere knl).find? (fun i => startsWithAtSign i) with
  | some i => .error (.at_iname_duplication i)
  | none => .ok ()

/-! ## Temporary variable creation -/

/-- The left-hand-side index walk of create_temporaries: every index
must be a plain variable naming a kernel iname; the accepted iname
names are returned in order. -/
def checkIndices (all_inames : List String) (assignee_name : String) :
    List Expr → Except Err (List String)
  | [] => .ok []
  | .var n :: rest =>
    if all_inames.contains n then do
      let more ← checkIndices all_inames assignee_name rest
      .ok (n :: more)
    else .error (.bad_lvalue_index assignee_name)
  | _ :: _ => .error (.bad_lvalue_index assignee_name)

/-- The instruction loop of create_temporaries, threading the growing
temporary dictionary and the rewritten instruction list.  The
find_base argument models the find_var_base_indices_and_shape_from_inames
collaborator (outside the two source files): per the spec it returns,
for the governing inames, the base-index offsets and the shape. -/
def createTempsLoop (knl : LoopKernel) (find_base : List String → List Int × List Nat) :
    List Instruction → List Instruction → List (String × TemporaryVariable) →
    Except Err (List Instruction × List (String × TemporaryVariable))
  | [], new_insns, new_temp_vars => .ok (new_insns, new_temp_vars)
  | insn :: rest, new_insns, new_temp_vars =>
    match insn.temp_var_type with
    | none => createTempsLoop knl find_base rest (new_insns ++ [insn]) new_temp_vars
    | some dt =>
      match getAssigneeVarName insn.assignee with
      | none => .error .invalid_assignee
      | some assignee_name => do
        let assignee_indices ←
          checkIndices knl.all_inames assignee_name (getAssigneeIndices insn.assignee)
        let bs := find_base assignee_indices
        if (alookup new_temp_vars assignee_name).isSome then
          .error (.temp_already_exists assignee_name)
        else if (knl.args.map (fun a => a.name)).contains assignee_name then
          .error (.temp_already_exists_as_arg assignee_name)
        else
          createTempsLoop knl find_base rest
            (new_insns ++ [{ insn with temp_var_type := none }])
            (aset new_temp_vars assignee_name
              { name := assignee_name, dtype := dt, is_local := none,
                base_indices := bs.1, shape := bs.2 })

/-- Embedding of create_temporaries: synthesize a temporary for every
instruction carrying a declared type and clear the declared-type
marker on the rewritten instruction. -/
def create_temporaries (knl : LoopKernel) (find_base : List String → List Int × List Nat) :
    Except Err LoopKernel := do
  let r ← createTempsLoop knl find_base knl.instructions [] knl.temporary_variables
  .ok { knl with instructions := r.1, temporary_variables := r.2 }

/-! ## Common-subexpression flattening -/

/-- The mutable state shared by CSEToAssignmentMapper and the
add_assignment closure of expand_cses: the unique-name registry state,
the growing temporary dictionary, the growing instruction list, the
instruction identifiers created during this pass, and the
per-run memo from untagged inner expressions to their variables. -/
structure CSEState where
  existing_names : List String
  temps : List (String × TemporaryVariable)
  new_insns : List Instruction
  newly_created_insn_ids : List String
  memo : List (Expr × Expr)
  deriving DecidableEq, Repr

/-- Modelled from the spec: make_unique_instruction_id (outside the two
source files) generates an instruction identifier distinct from the
existing instruction identifiers and from the extra identifiers
created earlier in the same pass. -/
def makeUniqueInstructionId (knl : LoopKernel) (extra : List String) : String :=
  freshName (knl.instructions.filterMap (fun i => i.id) ++ extra) "insn"

/-- The dtype stored for a hoisted value: the requested one, or the
deferred-inference marker when the tag requested none. -/
def cseDtype : Option String → TempDType
  | none => TempDType.infer
  | some d => TempDType.concrete d

/-- The add_assignment closure of expand_cses: allocate a fresh variable
name from the prefix hint, create a scalar temporary with the requested
dtype or the deferred-inference marker, and append a brand-new
assignment instruction computing the hoisted value. -/
def cseAddAssignment (knl : LoopKernel) (base_name : Option String) (expr : Expr)
    (dtype : Option String) (s : CSEState) : String × CSEState :=
  let base := base_name.getD "var"
  let new_var_name := freshName s.existing_names base
  let tv : TemporaryVariable :=
    { name := new_var_name, dtype := cseDtype dtype, is_local := none,
      base_indices := [], shape := [] }
  let new_id := makeUniqueInstructionId knl s.newly_created_insn_ids
  let insn : Instruction :=
    { id := some new_id, insn_deps := [], forced_iname_deps := [],
      assignee := .var new_var_name, expression := expr,
      temp_var_type := none, priority := 0 }
  (new_var_name,
    { s with
        existing_names := s.existing_names ++ [new_var_name],
        temps := aset s.temps new_var_name tv,
        new_insns := s.new_insns ++ [insn],
        newly_created_insn_ids := s.newly_created_insn_ids ++ [new_id] })

/-- Embedding of CSEToAssignmentMapper: an identity traversal except on
tagged common-subexpression nodes, which are replaced through the memo,
or hoisted after recursing into the inner expression, unless the
processed inner expression is already a plain variable. -/
def cseMap (knl : LoopKernel) : Expr → CSEState → Expr × CSEState
  | .var n, s => (.var n, s)
  | .lit n, s => (.lit n, s)
  | .add a b, s =>
    let p1 := cseMap knl a s
    let p2 := cseMap knl b p1.2
    (.add p1.1 p2.1, p2.2)
  | .mul a b, s =>
    let p1 := cseMap knl a s
    let p2 := cseMap knl b p1.2
    (.mul p1.1 p2.1, p2.2)
  | .subscript a b, s =>
    let p1 := cseMap knl a s
    let p2 := cseMap knl b p1.2
    (.subscript p1.1 p2.1, p2.2)
  | .tup a b, s =>
    let p1 := cseMap knl a s
    let p2 := cseMap knl b p1.2
    (.tup p1.1 p2.1, p2.2)
  | .reduction op inames body, s =>
    let p1 := cseMap knl body s
    (.reduction op inames p1.1, p1.2)
  | .cse child pfx dt, s =>
    match alookup s.memo child with
    | some v => (v, s)
    | none =>
      let p1 := cseMap knl child s
      if p1.1.isVar then (p1.1, p1.2)
      else
        let p2 := cseAddAssignment knl pfx p1.1 dt p1.2
        (.var p2.1, { p2.2 with memo := aset p2.2.memo child (.var p2.1) })

/-- Modelled from the spec: get_var_name_generator (outside the two
source files) seeds the unique name registry with every name in use in
the kernel. -/
def kernelUsedNames (knl : LoopKernel) : List String :=
  knl.all_inames ++ knl.args.map (fun a => a.name)
    ++ akeys knl.temporary_variables ++ akeys knl.substitutions

/-- The instruction loop of expand_cses: map each instruction
expression (appending hoisted instructions on the way) and then append
the rewritten instruction. -/
def expandCsesLoop (knl : LoopKernel) : List Instruction → CSEState → CSEState
  | [], s => s
  | insn :: rest, s =>
    let p := cseMap knl insn.expression s
    expandCsesLoop knl rest
      { p.2 with new_insns := p.2.new_insns ++ [{ insn with expression := p.1 }] }

/-- Embedding of expand_cses: run the mapper over every instruction with
a fresh memo and name generator, and return the kernel with the new
instruction list and temporary dictionary. -/
def expand_cses (knl : LoopKernel) : LoopKernel :=
  let s0 : CSEState :=
    { existing_names := kernelUsedNames knl, temps := knl.temporary_variables,
      new_insns := [], newly_created_insn_ids := [], memo := [] }
  let s := expandCsesLoop knl knl.instructions s0
  { knl with instructions := s.new_insns, temporary_variables := s.temps }

/-! ## Domain parsing -/

/-- A domain list element: raw text or an already-built set. -/
inductive DomainInput where
  | text (s : String)
  | built (b : BasicSetModel)
  deriving DecidableEq, Repr

/-- Split a character list at the first arrow token. -/
def splitArrow : List Char → Option (List Char × List Char)
  | [] => none
  | '-' :: '>' :: rest => some ([], rest)
  | c :: rest => (splitArrow rest).map (fun p => (c :: p.1, p.2))

/-- Characters of the first bracketed group. -/
def takeBracketed (s : List Char) : List Char :=
  ((s.dropWhile (fun c => c ≠ '[')).drop 1).takeWhile (fun c => c ≠ ']')

/-- Characters after the first colon. -/
def afterColon (s : List Char) : List Char :=
  (s.dropWhile (fun c => c ≠ ':')).drop 1

/-- The lstrip-startswith test of parse_domains: after stripping leading
whitespace the text begins with an opening square bracket, i.e. an
explicit parameter list is already given. -/
def lstripStartsWithBracket (s : List Char) : Bool :=
  match s.dropWhile (fun c => c.isWhitespace) with
  | '[' :: _ => true
  | _ => false

/-- Modelled from the spec: the polyhedral set library text parser
(isl.BasicSet.read_from_str).  A domain string carries an optional
bracketed parameter list before an arrow, then a braced set with a
bracketed dimension list and optional constraints after a colon; every
identifier referenced by the constraints must be a declared parameter
or a set dimension of the domain, otherwise parsing fails. -/
def islReadFromStr (s : String) : Except Err BasicSetModel :=
  let parts := match splitArrow s.data with
    | some p => p
    | none => ([], s.data)
  let params := dedupKeepFirst (identFinds parts.1)
  let dims := dedupKeepFirst (identFinds (takeBracketed parts.2))
  let refs := dedupKeepFirst (identFinds (afterColon parts.2))
  if refs.all (fun r => params.contains r || dims.contains r) then
    .ok { dim_names := dims.map some, param_names := params }
  else .error (.domain_parse_fail s)

/-- Comma join, as the parameter-list synthesis does. -/
def joinComma : List String → String
  | [] => ""
  | [x] => x
  | x :: rest => x ++ "," ++ joinComma rest

/-- The per-element resolution step of parse_domains: text is
macro-expanded single-valued, given a synthesized parameter list when it
does not already carry one, and parsed; a pre-built set is accepted
as-is. -/
def resolveDomain (defines : String → Option MacroVal) (available : List String) :
    DomainInput → Except Err BasicSetModel
  | .built b => .ok b
  | .text s => do
    let expanded ← expand_defines s defines true
    let s1 := expanded.headD s
    let s2 :=
      if lstripStartsWithBracket s1.data then s1
      else
        let ids := dedupKeepFirst (identFinds s1.data)
        let parameters := ids.filter (fun i => available.contains i)
        "[" ++ joinComma parameters ++ "] -> " ++ s1
    islReadFromStr s2

/-- The dimension walk of parse_domains over one resolved domain: every
dimension must be named and must not redefine a used iname; accepted
inames are returned in order and immediately join the used set. -/
def checkDims : List String → List (Option String) → Nat → Except Err (List String)
  | _, [], _ => .ok []
  | _, none :: _, i => .error (.unnamed_dim i)
  | used, some n :: rest, i =>
    if used.contains n then .error (.redefined_iname n)
    else do
      let more ← checkDims (used ++ [n]) rest (i + 1)
      .ok (n :: more)

/-- The domain loop of parse_domains, threading the expanding
available-parameter set and the used-iname set left to right. -/
def parseDomainsLoop (defines : String → Option MacroVal) :
    List DomainInput → List String → List String → List BasicSetModel →
    Except Err (List BasicSetModel)
  | [], _, _, result => .ok result
  | dom :: rest, available, used, result => do
    let b ← resolveDomain defines available dom
    let inames ← checkDims used b.dim_names 0
    parseDomainsLoop defines rest (available ++ inames) (used ++ inames) (result ++ [b])

/-- Embedding of parse_domains. -/
def parse_domains (args_and_vars : List String) (domains : List DomainInput)
    (defines : String → Option MacroVal) : Except Err (List BasicSetModel) :=
  parseDomainsLoop defines domains args_and_vars [] []

/-! ## Kernel creation pipeline -/

/-- Embedding of the check-and-transform tail of make_kernel (the calls
after the LoopKernel construction): the nonexistent-iname-deps check,
the reduction-iname duplication-request check, the
reduction-sequencing pass, temporary creation, CSE flattening, and the
three final checks, propagating the first fatal error. -/
def make_kernel_pipeline (knl : LoopKernel) (find_base : List String → List Int × List Nat) :
    Except Err LoopKernel := do
  let _ ← check_for_nonexistent_iname_deps knl
  let _ ← check_for_reduction_inames_duplication_requests knl
  let knl1 ← tag_reduction_inames_as_sequential knl
  let knl2 ← create_temporaries knl1 find_base
  let knl3 := expand_cses knl2
  let _ ← check_for_multiple_writes_to_loop_bounds knl3
  let _ ← check_for_duplicate_names knl3
  let _ ← check_written_variable_names knl3
  .ok knl3

/-! ## Library callables (src/loopy/library/function.py) -/

namespace MakeTupleCallable

/-- One iteration of the with_types loop at argument index i: if the
index is present in the original mapping with a known dtype, write the
dtype read back from the new mapping to the symmetric negative result
position. -/
def withTypesStep {α : Type} (arg_id_to_dtype : List (Int × Option α))
    (acc : List (Int × Option α)) (i : Nat) : List (Int × Option α) :=
  match alookup arg_id_to_dtype ((i : Int)) with
  | some (some _) =>
    match alookup acc ((i : Int)) with
    | some v => aset acc (-((i : Int)) - 1) v
    | none => acc
  | _ => acc

/-- Embedding of MakeTupleCallable.with_types: copy the
argument-position-to-dtype mapping and run the mirroring loop over the
indexes below the number of entries of the mapping. -/
def with_types {α : Type} (arg_id_to_dtype : List (Int × Option α)) :
    List (Int × Option α) :=
  (List.range arg_id_to_dtype.length).foldl (withTypesStep arg_id_to_dtype) arg_id_to_dtype

end MakeTupleCallable

/-- Decidable equality for results, so that concrete runs of the
embedded passes can be checked by evaluation. -/
instance exceptDecEq {ε α : Type} [DecidableEq ε] [DecidableEq α] :
    DecidableEq (Except ε α) := fun a b =>
  match a, b with
  | .error e1, .error e2 =>
    if h : e1 = e2 then .isTrue (by rw [h]) else .isFalse (by intro hh; cases hh; exact h rfl)
  | .ok v1, .ok v2 =>
    if h : v1 = v2 then .isTrue (by rw [h]) else .isFalse (by intro hh; cases hh; exact h rfl)
  | .error _, .ok _ => .isFalse (by intro hh; cases hh)
  | .ok _, .error _ => .isFalse (by intro hh; cases hh)

/-! ## Theorems: macro expansion (claims C7 and C8) -/

/-- A macro table whose every value is single-valued. -/
def scalarDefines (d : String → Option String) : String → Option MacroVal :=
  fun w => (d w).map MacroVal.one

/-- The replacement pairs contributed by the dollar-brace pass over one
text, in match order. -/
def braceSubsOf (insn : String) (d : String → Option String) : List (Pat × String) :=
  (braceFinds insn.data).filterMap (fun w => (d w).map (fun v => (Pat.braceP w, v)))

/-- The replacement pairs contributed by the bare-word pass over one
text, in match order. -/
def wordSubsOf (insn : String) (d : String → Option String) : List (Pat × String) :=
  (wordFinds insn.data).filterMap (fun w => (d w).map (fun v => (Pat.wordP w, v)))

theorem scanMatches_scalar (mk : String → Pat) (d : String → Option String) (sv : Bool)
    (ws : List String) : ∀ (rep : List (Pat × String)),
    scanMatches mk (scalarDefines d) sv [rep] ws
      = .ok [rep ++ ws.filterMap (fun w => (d w).map (fun v => (mk w, v)))] := by
  induction ws with
  | nil =>
    intro rep
    simp [scanMatches]
  | cons w ws ih =>
    intro rep
    cases hd : d w with
    | none => simp [scanMatches, scalarDefines, hd, ih]
    | some v => simp [scanMatches, scalarDefines, hd, ih]

/-- Containment of a whole-word match anywhere in the text, scanning
exactly as the bare-word re.sub does. -/
def containsWordMatch (w : List Char) : Bool → List Char → Bool
  | _, [] => false
  | prevWord, c :: rest =>
    if w ≠ [] ∧ prevWord = false ∧ wordMatchAt w (c :: rest) = true then true
    else containsWordMatch w (isWordChar c) rest

theorem subWordFuel_id (w repl : List Char) :
    ∀ (s : List Char) (b : Bool) (fuel : Nat), containsWordMatch w b s = false →
      subWordFuel w repl fuel b s = s := by
  intro s
  induction s with
  | nil =>
    intro b fuel _
    cases fuel <;> simp [subWordFuel]
  | cons c rest ih =>
    intro b fuel hno
    cases fuel with
    | zero => simp [subWordFuel]
    | succ fuel =>
      unfold containsWordMatch at hno
      split at hno
      · exact absurd hno (by simp)
      · rename_i hcond
        simp only [subWordFuel]
        rw [if_neg hcond, ih (isWordChar c) fuel hno]

/-- The macro table of the reinterpretation counterexample: the word a
is bound to a value containing the bracket form of b, and b to V. -/
def braceValueDefines : String → Option MacroVal := fun w =>
  if w = "a" then some (.one "${b}") else if w = "b" then some (.one "V") else none

/-- C7 counterexample: expanding a text mentioning both placeholders
first substitutes the value of a (which is the bracket form of b) and
then, applying the substitution for b that was collected from the
original text, rewrites the injected value too, yielding V V rather
than leaving the injected bracket form intact.  A defined value
containing bracket syntax is thus expanded again within the same call,
refuting the claim that it never is. -/
theorem brace_value_reinterpreted :
    expand_defines "${a} ${b}" braceValueDefines true = .ok ["V V"] := by decide

/-- C7 (amended): with single-valued definitions, the expansion equals
applying all dollar-brace substitutions first and all bare-word
substitutions after them (bracketed forms entirely before bare forms);
and a defined value is returned verbatim, bracket syntax inside it
unexpanded, whenever no placeholder matched in the original text occurs
as a whole word inside the value (each pattern comes from the original
text, but its re.sub still rewrites the whole working string, so a
value can be rewritten when the same name also occurs in the original
text). -/
theorem brace_before_bare_substitution :
    (∀ (insn : String) (d : String → Option String),
      expand_defines insn (scalarDefines d) true
        = .ok [(wordSubsOf insn d).foldl applyPat
            ((braceSubsOf insn d).foldl applyPat insn)])
    ∧ (∀ v : String, containsWordMatch "a".data false v.data = false →
      expand_defines "${a}" (scalarDefines (fun w => if w = "a" then some v else none)) true
        = .ok [v]) := by
  constructor
  · intro insn d
    have h1 := scanMatches_scalar Pat.braceP d true (braceFinds insn.data) []
    have h2 := scanMatches_scalar Pat.wordP d true (wordFinds insn.data)
      (braceSubsOf insn d)
    simp only [List.nil_append] at h1
    unfold expand_defines
    rw [show ((braceFinds insn.data).filterMap
        (fun w => (d w).map (fun v => (Pat.braceP w, v)))) = braceSubsOf insn d from rfl] at h1
    rw [show ((wordFinds insn.data).filterMap
        (fun w => (d w).map (fun v => (Pat.wordP w, v)))) = wordSubsOf insn d from rfl] at h2
    rw [h1]
    simp only [Bind.bind, Except.bind]
    rw [h2]
    simp [List.foldl_append]
  · intro v hv
    have hd : expand_defines "${a}"
        (scalarDefines (fun w => if w = "a" then some v else none)) true
        = .ok [applyPat (applyPat "${a}" (Pat.braceP "a", v)) (Pat.wordP "a", v)] := rfl
    rw [hd]
    have hb : applyPat "${a}" (Pat.braceP "a", v) = String.mk (v.data ++ []) := rfl
    rw [hb]
    have hmk : String.mk (v.data ++ []) = v := by
      cases v
      simp
    rw [hmk]
    have hw : applyPat v (Pat.wordP "a", v) = String.mk (subWord "a".data v.data false v.data) :=
      rfl
    rw [hw]
    unfold subWord
    rw [subWordFuel_id "a".data v.data v.data false v.data.length hv]

/-- Witness for the amended claim at a concrete value carrying bracket
syntax. -/
theorem brace_before_bare_substitution_witness :
    expand_defines "${a}"
        (scalarDefines (fun w => if w = "a" then some "${z}+1" else none)) true
      = .ok ["${z}+1"] :=
  brace_before_bare_substitution.2 "${z}+1" (by decide)

/-- A macro table binding the word a to one list of values and the word
b to another. -/
def twoListDefines (vs1 vs2 : List String) : String → Option MacroVal := fun w =>
  if w = "a" then some (.many vs1) else if w = "b" then some (.many vs2) else none

/-- C8: in multi-valued mode, a text with two independent placeholders
bound to lists of lengths two and three yields exactly six expansions,
one per pair of the Cartesian product of the two value lists in
row-major order, each obtained by substituting that pair into the
text. -/
theorem multi_valued_expansion_cardinality (vs1 vs2 : List String)
    (h1 : vs1.length = 2) (h2 : vs2.length = 3) :
    expand_defines "a b" (twoListDefines vs1 vs2) false
      = .ok (vs1.flatMap (fun v1 => vs2.map (fun v2 =>
          applyPat (applyPat "a b" (Pat.wordP "a", v1)) (Pat.wordP "b", v2))))
    ∧ (vs1.flatMap (fun v1 => vs2.map (fun v2 =>
          applyPat (applyPat "a b" (Pat.wordP "a", v1)) (Pat.wordP "b", v2)))).length = 6 := by
  obtain ⟨x1, x2, rfl⟩ := List.length_eq_two.mp h1
  obtain ⟨y1, y2, y3, rfl⟩ := List.length_eq_three.mp h2
  exact ⟨rfl, rfl⟩

/-- Witness for the cardinality theorem at concrete value lists. -/
theorem multi_valued_expansion_cardinality_witness :
    expand_defines "a b" (twoListDefines ["x", "y"] ["1", "2", "3"]) false
      = .ok ["x 1", "x 2", "x 3", "y 1", "y 2", "y 3"] :=
  ((multi_valued_expansion_cardinality ["x", "y"] ["1", "2", "3"] rfl rfl).1).trans (by decide)

/-! ## Theorems: tuple-packing type inference (claim C9) -/

theorem foldl_range_succ {β : Type} (f : β → Nat → β) (init : β) (n : Nat) :
    (List.range (n + 1)).foldl f init = f ((List.range n).foldl f init) n := by
  rw [List.range_succ, List.foldl_append]
  simp

theorem withTypesStep_lookup_nonneg {α : Type} (m acc : List (Int × Option α)) (i : Nat)
    (j : Int) (hj : 0 ≤ j) :
    alookup (MakeTupleCallable.withTypesStep m acc i) j = alookup acc j := by
  unfold MakeTupleCallable.withTypesStep
  cases h1 : alookup m ((i : Int)) with
  | none => rfl
  | some o =>
    cases o with
    | none => rfl
    | some t =>
      cases h2 : alookup acc ((i : Int)) with
      | none => rfl
      | some v =>
        have hne : j ≠ -((i : Int)) - 1 := by omega
        exact alookup_aset_ne _ _ _ _ hne

theorem withTypesStep_lookup_neg_ne {α : Type} (m acc : List (Int × Option α)) (i i2 : Nat)
    (hne : i2 ≠ i) :
    alookup (MakeTupleCallable.withTypesStep m acc i) (-((i2 : Int)) - 1)
      = alookup acc (-((i2 : Int)) - 1) := by
  unfold MakeTupleCallable.withTypesStep
  cases h1 : alookup m ((i : Int)) with
  | none => rfl
  | some o =>
    cases o with
    | none => rfl
    | some t =>
      cases h2 : alookup acc ((i : Int)) with
      | none => rfl
      | some v =>
        have hne2 : -((i2 : Int)) - 1 ≠ -((i : Int)) - 1 := by omega
        exact alookup_aset_ne _ _ _ _ hne2

theorem withTypesStep_mirror {α : Type} (m acc : List (Int × Option α)) (i : Nat) (t : α)
    (hm : alookup m ((i : Int)) = some (some t))
    (hacc : alookup acc ((i : Int)) = some (some t)) :
    alookup (MakeTupleCallable.withTypesStep m acc i) (-((i : Int)) - 1)
      = some (some t) := by
  unfold MakeTupleCallable.withTypesStep
  rw [hm, hacc]
  exact alookup_aset_self _ _ _

theorem withTypes_preserves_nonneg {α : Type} (m : List (Int × Option α)) :
    ∀ (n : Nat) (j : Int), 0 ≤ j →
      alookup ((List.range n).foldl (MakeTupleCallable.withTypesStep m) m) j = alookup m j := by
  intro n
  induction n with
  | zero =>
    intro j _
    simp
  | succ n ih =>
    intro j hj
    rw [foldl_range_succ, withTypesStep_lookup_nonneg m _ n j hj]
    exact ih j hj

theorem withTypes_mirrors_below {α : Type} (m : List (Int × Option α)) :
    ∀ (n i : Nat) (t : α), i < n → alookup m ((i : Int)) = some (some t) →
      alookup ((List.range n).foldl (MakeTupleCallable.withTypesStep m) m)
        (-((i : Int)) - 1) = some (some t) := by
  intro n
  induction n with
  | zero =>
    intro i t hi _
    omega
  | succ n ih =>
    intro i t hi hm
    rw [foldl_range_succ]
    by_cases hin : i = n
    · subst hin
      exact withTypesStep_mirror m _ i t hm
        ((withTypes_preserves_nonneg m i ((i : Int)) (by omega)).trans hm)
    · rw [withTypesStep_lookup_neg_ne m _ n i hin]
      exact ih i t (by omega) hm

/-- C9 counterexample: a mapping whose single entry sits at argument
position 1 (so the mapping has one entry, and the loop only visits
index 0) is returned unchanged; no mirrored entry at result position
minus-two appears, although the type of argument position 1 is known,
refuting the claim as stated over every argument position of the
mapping. -/
theorem make_tuple_gapped_key_not_mirrored :
    MakeTupleCallable.with_types (α := Nat) [((1 : Int), some 5)] = [((1 : Int), some 5)]
    ∧ alookup (MakeTupleCallable.with_types (α := Nat) [((1 : Int), some 5)]) (-2) = none :=
  ⟨by decide, by decide⟩

/-- C9 (amended): for every argument position i below the number of
entries of the input mapping that is present with a known type, the
returned mapping assigns that same type to result position minus-i-1,
and every entry at a nonnegative position is preserved unchanged;
positions at or beyond the entry count (possible when the key set is
not contiguous from zero) are not mirrored. -/
theorem make_tuple_with_types_mirrors {α : Type} (m : List (Int × Option α))
    (i : Nat) (t : α) (hi : i < m.length)
    (hm : alookup m ((i : Int)) = some (some t)) :
    alookup (MakeTupleCallable.with_types m) (-((i : Int)) - 1) = some (some t)
    ∧ ∀ j : Int, 0 ≤ j → alookup (MakeTupleCallable.with_types m) j = alookup m j := by
  constructor
  · unfold MakeTupleCallable.with_types
    exact withTypes_mirrors_below m m.length i t hi hm
  · intro j hj
    unfold MakeTupleCallable.with_types
    exact withTypes_preserves_nonneg m m.length j hj

/-- Witness for the mirroring theorem at a concrete one-entry
mapping. -/
theorem make_tuple_with_types_mirrors_witness :
    alookup (MakeTupleCallable.with_types (α := Nat) [((0 : Int), some 3)]) (-1)
      = some (some 3)
    ∧ alookup (MakeTupleCallable.with_types (α := Nat) [((0 : Int), some 3)]) 0
      = some (some 3) := by
  have h := make_tuple_with_types_mirrors (α := Nat) [((0 : Int), some 3)] 0 3
    (by decide) (by decide)
  exact ⟨by simpa using h.1, by simpa using h.2 0 (by decide)⟩

/-! ## Theorems: single-writer check for data-dependent bounds (claim C4) -/

/-- C4: the single-writer check succeeds exactly when every temporary
variable that also occurs as a domain parameter has exactly one writing
instruction; whenever some such variable has zero or at least two
writers the check reports the multiple-writes error naming such a
parameter together with its writer count; and every reported error
names a parameter of that kind whose writer count differs from one. -/
theorem single_writer_check_characterization (knl : LoopKernel) :
    (check_for_multiple_writes_to_loop_bounds knl = .ok () ↔
      ∀ v ∈ temp_var_domain_parameters knl, (writersOf knl v).length = 1)
    ∧ ((∃ v ∈ temp_var_domain_parameters knl, (writersOf knl v).length ≠ 1) →
      ∃ v ∈ temp_var_domain_parameters knl,
        check_for_multiple_writes_to_loop_bounds knl
          = .error (.multiple_writes v (writersOf knl v).length)
        ∧ (writersOf knl v).length ≠ 1)
    ∧ (∀ v n, check_for_multiple_writes_to_loop_bounds knl = .error (.multiple_writes v n) →
      v ∈ temp_var_domain_parameters knl ∧ n = (writersOf knl v).length ∧ n ≠ 1) := by
  unfold check_for_multiple_writes_to_loop_bounds
  cases hf : (temp_var_domain_parameters knl).find?
      (fun v => !((writersOf knl v).length == 1)) with
  | none =>
    rw [List.find?_eq_none] at hf
    refine ⟨⟨fun _ v hv => by simpa using hf v hv, fun _ => rfl⟩, ?_, ?_⟩
    · rintro ⟨v, hv, hne⟩
      exact absurd (by simpa using hf v hv) hne
    · intro v n h
      exact absurd h (by simp)
  | some v0 =>
    have hmem := List.mem_of_find?_eq_some hf
    have hpred := List.find?_some hf
    simp only [Bool.not_eq_eq_eq_not, Bool.not_true, beq_eq_false_iff_ne] at hpred
    refine ⟨⟨fun h => absurd h (by simp), fun hall => absurd (hall v0 hmem) hpred⟩, ?_, ?_⟩
    · intro _
      exact ⟨v0, hmem, rfl, hpred⟩
    · intro v n h
      simp only [Except.error.injEq, Err.multiple_writes.injEq] at h
      obtain ⟨rfl, rfl⟩ := h
      exact ⟨hmem, rfl, hpred⟩

/-- The kernel of the single-writer witness: the temporary t is a
parameter of the only domain and no instruction writes it. -/
def singleWriterK : LoopKernel where
  domains := [⟨[some "i"], ["t"]⟩]
  instructions := []
  args := []
  temporary_variables := [("t", ⟨"t", .infer, none, [], []⟩)]
  substitutions := []
  iname_to_tag := []

/-- Witness: on a kernel whose data-dependent bound t has zero writers,
the check reports the multiple-writes error for t. -/
theorem single_writer_check_characterization_witness :
    ∃ v ∈ temp_var_domain_parameters singleWriterK,
      check_for_multiple_writes_to_loop_bounds singleWriterK
        = .error (.multiple_writes v (writersOf singleWriterK v).length)
      ∧ (writersOf singleWriterK v).length ≠ 1 :=
  (single_writer_check_characterization singleWriterK).2.1 (by decide)

/-! ## Theorems: rejection of at-sign reduction inames (claim C10) -/

/-- C10: a reduction loop index beginning with the at-sign, in an
instruction expression or in a substitution rule expression, makes the
duplication-request check fail with its dedicated error, and the
kernel construction pipeline that runs this check right after building
the kernel propagates a fatal error. -/
theorem at_iname_duplication_request_rejected (knl : LoopKernel)
    (find_base : List String → List Int × List Nat)
    (h : ∃ i ∈ reductionInamesEverywhere knl, startsWithAtSign i = true) :
    (∃ i, check_for_reduction_inames_duplication_requests knl
        = .error (.at_iname_duplication i) ∧ startsWithAtSign i = true)
    ∧ ∃ e, make_kernel_pipeline knl find_base = .error e := by
  have hcheck : ∃ i, check_for_reduction_inames_duplication_requests knl
      = .error (.at_iname_duplication i) ∧ startsWithAtSign i = true := by
    unfold check_for_reduction_inames_duplication_requests
    cases hf : (reductionInamesEverywhere knl).find? (fun i => startsWithAtSign i) with
    | none =>
      rw [List.find?_eq_none] at hf
      obtain ⟨i, hmem, hat⟩ := h
      exact absurd hat (by simpa using hf i hmem)
    | some j =>
      exact ⟨j, rfl, by simpa using List.find?_some hf⟩
  refine ⟨hcheck, ?_⟩
  obtain ⟨j, hj, _⟩ := hcheck
  unfold make_kernel_pipeline
  cases h1 : check_for_nonexistent_iname_deps knl with
  | error e =>
    exact ⟨e, by simp [h1, Bind.bind, Except.bind]⟩
  | ok u =>
    cases u
    exact ⟨.at_iname_duplication j, by simp [h1, hj, Bind.bind, Except.bind]⟩

/-- The kernel of the at-sign witness: the only reduction over the
legacy-syntax index at-i sits inside a substitution rule. -/
def atInameK : LoopKernel where
  domains := [⟨[some "i"], []⟩]
  instructions := []
  args := []
  temporary_variables := []
  substitutions := [("s", ⟨"s", [], Expr.reduction "sum" ["@i"] (Expr.lit 0)⟩)]
  iname_to_tag := []

/-- A trivial stand-in for the base-and-shape collaborator, for
concrete pipeline runs. -/
def anyFindBase : List String → List Int × List Nat := fun _ => ([], [])

/-- Witness: the at-sign rejection fires on a concrete kernel whose
only at-sign reduction index occurs inside a substitution rule. -/
theorem at_iname_duplication_request_rejected_witness :
    (∃ i, check_for_reduction_inames_duplication_requests atInameK
        = .error (.at_iname_duplication i) ∧ startsWithAtSign i = true)
    ∧ ∃ e, make_kernel_pipeline atInameK anyFindBase = .error e :=
  at_iname_duplication_request_rejected atInameK anyFindBase (by decide)

/-! ## Theorems: reduction sequencing (claims C1 and C2) -/

theorem scanReductionInames_ok (knl : LoopKernel) :
    ∀ (l : List String) (acc : List (String × InameTag)),
      (∀ i ∈ l, ∀ t, alookup knl.iname_to_tag i = some t → t.isParallel = false) →
      ∃ acc2, scanReductionInames knl l acc = .ok acc2
        ∧ (∀ j, alookup acc2 j =
            if j ∈ l ∧ alookup knl.iname_to_tag j = none
            then some InameTag.force_sequential
            else alookup acc j)
        ∧ ((akeys acc).Nodup → (akeys acc2).Nodup) := by
  intro l
  induction l with
  | nil =>
    intro acc _
    refine ⟨acc, rfl, fun j => by simp, id⟩
  | cons i rest ih =>
    intro acc hall
    cases ht : alookup knl.iname_to_tag i with
    | some t =>
      have hnp : t.isParallel = false := hall i (by simp) t ht
      have hrest := ih acc (fun i2 h2 => hall i2 (by simp [h2]))
      obtain ⟨acc2, hscan, hchar, hnd⟩ := hrest
      refine ⟨acc2, ?_, ?_, hnd⟩
      · unfold scanReductionInames
        rw [ht]
        simp [hnp, hscan]
      · intro j
        rw [hchar j]
        by_cases hj : j = i
        · subst hj
          simp [ht]
        · simp [hj, List.mem_cons]
    | none =>
      have hrest := ih (aset acc i .force_sequential)
        (fun i2 h2 => hall i2 (by simp [h2]))
      obtain ⟨acc2, hscan, hchar, hnd⟩ := hrest
      refine ⟨acc2, ?_, ?_, fun h => hnd (akeys_aset_nodup acc i _ h)⟩
      · unfold scanReductionInames
        rw [ht]
        exact hscan
      · intro j
        rw [hchar j]
        by_cases hj : j = i
        · subst hj
          simp [ht, alookup_aset_self]
        · by_cases hm : j ∈ rest ∧ alookup knl.iname_to_tag j = none
          · simp [hm, List.mem_cons, hm.1, hm.2]
          · have hm2 : ¬(j ∈ i :: rest ∧ alookup knl.iname_to_tag j = none) := by
              simp only [List.mem_cons]
              intro hc
              exact hm ⟨hc.1.resolve_left hj, hc.2⟩
            simp only [if_neg hm, if_neg hm2]
            exact alookup_aset_ne acc i j _ hj

theorem scanReductionInames_err (knl : LoopKernel) :
    ∀ (l : List String) (acc : List (String × InameTag)) (i0 : String) (t0 : InameTag),
      i0 ∈ l → alookup knl.iname_to_tag i0 = some t0 → t0.isParallel = true →
      ∃ i t, scanReductionInames knl l acc = .error (.reduction_parallel_iname i)
        ∧ i ∈ l ∧ alookup knl.iname_to_tag i = some t ∧ t.isParallel = true := by
  intro l
  induction l with
  | nil =>
    intro acc i0 t0 h
    simp at h
  | cons i rest ih =>
    intro acc i0 t0 hmem ht0 hpar0
    cases ht : alookup knl.iname_to_tag i with
    | some t =>
      by_cases hp : t.isParallel = true
      · refine ⟨i, t, ?_, by simp, ht, hp⟩
        unfold scanReductionInames
        rw [ht]
        simp [hp]
      · have hne : i0 ≠ i := by
          intro he
          subst he
          rw [ht0] at ht
          cases ht
          exact hp hpar0
        have hmem2 : i0 ∈ rest := by
          cases List.mem_cons.mp hmem with
          | inl h => exact absurd h hne
          | inr h => exact h
        obtain ⟨i2, t2, hscan, hm2, hlk2, hp2⟩ := ih acc i0 t0 hmem2 ht0 hpar0
        refine ⟨i2, t2, ?_, by simp [hm2], hlk2, hp2⟩
        unfold scanReductionInames
        rw [ht]
        simp [hp, hscan]
    | none =>
      have hne : i0 ≠ i := by
        intro he
        subst he
        rw [ht0] at ht
        cases ht
      have hmem2 : i0 ∈ rest := by
        cases List.mem_cons.mp hmem with
        | inl h => exact absurd h hne
        | inr h => exact h
      obtain ⟨i2, t2, hscan, hm2, hlk2, hp2⟩ :=
        ih (aset acc i .force_sequential) i0 t0 hmem2 ht0 hpar0
      refine ⟨i2, t2, ?_, by simp [hm2], hlk2, hp2⟩
      unfold scanReductionInames
      rw [ht]
      exact hscan

/-- C1: the reduction-sequencing pass fails, naming the offending loop
index, exactly as demanded when some reduction loop index of the
scanned expressions already carries a parallel tag (judged against the
tags before the pass); when no reduction loop index is parallel-tagged,
the pass succeeds and returns the kernel unchanged except for the
iname-to-tag mapping, updated in a single step after the whole scan:
every previously untagged reduction loop index now carries the
forced-sequential tag and every other tag is exactly as before. -/
theorem reduction_sequencing_characterization (knl : LoopKernel) :
    ((∃ i ∈ kernelReductionInames knl, ∃ t, alookup knl.iname_to_tag i = some t
        ∧ t.isParallel = true) →
      ∃ i t, tag_reduction_inames_as_sequential knl = .error (.reduction_parallel_iname i)
        ∧ i ∈ kernelReductionInames knl ∧ alookup knl.iname_to_tag i = some t
        ∧ t.isParallel = true)
    ∧ ((∀ i ∈ kernelReductionInames knl, ∀ t, alookup knl.iname_to_tag i = some t →
        t.isParallel = false) →
      ∃ knl2, tag_reduction_inames_as_sequential knl = .ok knl2
        ∧ knl2.domains = knl.domains ∧ knl2.instructions = knl.instructions
        ∧ knl2.args = knl.args ∧ knl2.temporary_variables = knl.temporary_variables
        ∧ knl2.substitutions = knl.substitutions
        ∧ ∀ j, alookup knl2.iname_to_tag j =
            if j ∈ kernelReductionInames knl ∧ alookup knl.iname_to_tag j = none
            then some InameTag.force_sequential
            else alookup knl.iname_to_tag j) := by
  constructor
  · rintro ⟨i0, hmem, t0, ht, hpar⟩
    obtain ⟨i, t, hscan, hm, hlk, hp⟩ :=
      scanReductionInames_err knl (kernelReductionInames knl) [] i0 t0 hmem ht hpar
    refine ⟨i, t, ?_, hm, hlk, hp⟩
    unfold tag_reduction_inames_as_sequential
    simp [hscan, Bind.bind, Except.bind]
  · intro hall
    obtain ⟨acc2, hscan, hchar, hnd⟩ :=
      scanReductionInames_ok knl (kernelReductionInames knl) [] hall
    refine ⟨tag_inames knl acc2, ?_, rfl, rfl, rfl, rfl, rfl, ?_⟩
    · unfold tag_reduction_inames_as_sequential
      simp [hscan, Bind.bind, Except.bind]
    · intro j
      have hup : (tag_inames knl acc2).iname_to_tag
          = acc2.foldl (fun m kv => aset m kv.1 kv.2) knl.iname_to_tag := rfl
      rw [hup, alookup_foldl_aset acc2 knl.iname_to_tag (hnd (by simp [akeys])) j, hchar j]
      by_cases hc : j ∈ kernelReductionInames knl ∧ alookup knl.iname_to_tag j = none
      · simp [hc]
      · simp [hc, alookup]

/-- The kernel of the sequencing witness: one instruction reduces over
the untagged loop index i. -/
def seqWitnessK : LoopKernel where
  domains := [⟨[some "i"], []⟩]
  instructions :=
    [⟨some "a", [], [], Expr.var "y", Expr.reduction "sum" ["i"] (Expr.var "x"), none, 0⟩]
  args := [⟨"x"⟩, ⟨"y"⟩]
  temporary_variables := []
  substitutions := []
  iname_to_tag := []

/-- Witness: on a concrete kernel with an untagged reduction index, the
pass succeeds and the characterization applies. -/
theorem reduction_sequencing_characterization_witness :
    ∃ knl2, tag_reduction_inames_as_sequential seqWitnessK = .ok knl2
      ∧ knl2.domains = seqWitnessK.domains ∧ knl2.instructions = seqWitnessK.instructions
      ∧ knl2.args = seqWitnessK.args
      ∧ knl2.temporary_variables = seqWitnessK.temporary_variables
      ∧ knl2.substitutions = seqWitnessK.substitutions
      ∧ ∀ j, alookup knl2.iname_to_tag j =
          if j ∈ kernelReductionInames seqWitnessK ∧ alookup seqWitnessK.iname_to_tag j = none
          then some InameTag.force_sequential
          else alookup seqWitnessK.iname_to_tag j :=
  (reduction_sequencing_characterization seqWitnessK).2
    (by intro i hi t ht; simp [alookup] at ht)

/-- The kernel of the ignored-substitution counterexample: no
instructions; the only reduction over the parallel-tagged index i sits
inside a substitution rule expression. -/
def substRedK : LoopKernel where
  domains := [⟨[some "i"], []⟩]
  instructions := []
  args := []
  temporary_variables := []
  substitutions := [("s", ⟨"s", [], Expr.reduction "sum" ["i"] (Expr.var "x")⟩)]
  iname_to_tag := [("i", InameTag.parallel "l.0")]

/-- The same reduction placed in an instruction expression instead. -/
def instrRedK : LoopKernel where
  domains := [⟨[some "i"], []⟩]
  instructions :=
    [⟨some "a", [], [], Expr.var "y", Expr.reduction "sum" ["i"] (Expr.var "x"), none, 0⟩]
  args := []
  temporary_variables := []
  substitutions := []
  iname_to_tag := [("i", InameTag.parallel "l.0")]

/-- C2 counterexample: a loop index reduced over only inside a
substitution rule expression is not treated like one reduced over in an
instruction expression: with the parallel tag on i, the pass accepts
the substitution-rule kernel unchanged (neither failing nor tagging),
while the same reduction as an instruction expression is fatal. -/
theorem substitution_reduction_iname_ignored :
    tag_reduction_inames_as_sequential substRedK = .ok substRedK
    ∧ tag_reduction_inames_as_sequential instrRedK
        = .error (.reduction_parallel_iname "i") :=
  ⟨by decide, by decide⟩

/-- C2 (amended): the reduction-sequencing pass collects reduction loop
indexes from instruction expressions only; substitution rule
expressions are never scanned, so the outcome of the pass is the same
for any two substitution tables over the same remaining kernel, up to
the substitutions field itself being carried through. -/
theorem reduction_sequencing_ignores_substitutions (knl : LoopKernel)
    (subs1 subs2 : List (String × SubstitutionRule)) :
    (tag_reduction_inames_as_sequential { knl with substitutions := subs1 }).map
        (fun k => { k with substitutions := subs2 })
      = tag_reduction_inames_as_sequential { knl with substitutions := subs2 } := by
  have hcongr : ∀ (k1 k2 : LoopKernel), k1.iname_to_tag = k2.iname_to_tag →
      ∀ (l : List String) (acc : List (String × InameTag)),
      scanReductionInames k1 l acc = scanReductionInames k2 l acc := by
    intro k1 k2 h l
    induction l with
    | nil => intro acc; rfl
    | cons i rest ih =>
      intro acc
      unfold scanReductionInames
      rw [h]
      cases alookup k2.iname_to_tag i with
      | none => exact ih _
      | some t =>
        by_cases hp : t.isParallel <;> simp [hp, ih]
  unfold tag_reduction_inames_as_sequential
  rw [hcongr { knl with substitutions := subs1 } { knl with substitutions := subs2 } rfl]
  rw [show kernelReductionInames { knl with substitutions := subs1 }
      = kernelReductionInames { knl with substitutions := subs2 } from rfl]
  cases hs : scanReductionInames { knl with substitutions := subs2 }
      (kernelReductionInames { knl with substitutions := subs2 }) [] with
  | error e => simp [hs, Except.map, Bind.bind, Except.bind]
  | ok m =>
    simp only [Bind.bind, Except.bind, hs, Except.map]
    rfl

/-! ## Theorems: temporary variable creation (claim C6) -/

/-- The index forms that are fatal on the left-hand side of a declaring
instruction: anything but a plain variable naming a kernel iname. -/
def invalidLvalueIndex (all_inames : List String) : Expr → Bool
  | .var n => !all_inames.contains n
  | _ => true

/-- The iname names of a list of valid left-hand-side indexes. -/
def lvalueIndexNames (l : List Expr) : List String :=
  l.filterMap (fun e => match e with | .var n => some n | _ => none)

theorem aset_append_of_none {K V : Type} [DecidableEq K] (m : List (K × V)) (k : K) (v : V)
    (h : alookup m k = none) : aset m k v = m ++ [(k, v)] := by
  unfold aset
  simp [h]

theorem checkIndices_ok (all : List String) (nm : String) :
    ∀ l : List Expr, (∀ ix ∈ l, invalidLvalueIndex all ix = false) →
      checkIndices all nm l = .ok (lvalueIndexNames l) := by
  intro l
  induction l with
  | nil =>
    intro _
    rfl
  | cons ix rest ih =>
    intro h
    have hix := h ix (by simp)
    have hrest := ih (fun ix2 h2 => h ix2 (by simp [h2]))
    cases ix with
    | var n =>
      have hc : all.contains n = true := by
        simpa [invalidLvalueIndex] using hix
      have hmem : n ∈ all := by simpa using hc
      simp [checkIndices, hc, hmem, hrest, lvalueIndexNames, Bind.bind, Except.bind]
    | lit n => simp [invalidLvalueIndex] at hix
    | add a b => simp [invalidLvalueIndex] at hix
    | mul a b => simp [invalidLvalueIndex] at hix
    | subscript a b => simp [invalidLvalueIndex] at hix
    | tup a b => simp [invalidLvalueIndex] at hix
    | reduction op inames body => simp [invalidLvalueIndex] at hix
    | cse c p d => simp [invalidLvalueIndex] at hix

theorem checkIndices_err (all : List String) (nm : String) :
    ∀ l : List Expr, (∃ ix ∈ l, invalidLvalueIndex all ix = true) →
      checkIndices all nm l = .error (.bad_lvalue_index nm) := by
  intro l
  induction l with
  | nil =>
    rintro ⟨ix, hm, _⟩
    simp at hm
  | cons ix rest ih =>
    rintro ⟨ix0, hm, hbad⟩
    cases List.mem_cons.mp hm with
    | inl he =>
      subst he
      cases ix0 with
      | var n =>
        have hc : all.contains n = false := by
          simpa [invalidLvalueIndex] using hbad
        have hmem : n ∉ all := by simpa using hc
        simp [checkIndices, hc, hmem]
      | lit n => rfl
      | add a b => rfl
      | mul a b => rfl
      | subscript a b => rfl
      | tup a b => rfl
      | reduction op inames body => rfl
      | cse c p d => rfl
    | inr hr =>
      have hrest := ih ⟨ix0, hr, hbad⟩
      cases ix with
      | var n =>
        by_cases hc : all.contains n = true
        · have hmem : n ∈ all := by simpa using hc
          simp [checkIndices, hc, hmem, hrest, Bind.bind, Except.bind]
        · have hmem : n ∉ all := by simpa using hc
          simp [checkIndices, hmem]
      | lit n => rfl
      | add a b => rfl
      | mul a b => rfl
      | subscript a b => rfl
      | tup a b => rfl
      | reduction op inames body => rfl
      | cse c p d => rfl

theorem createTempsLoop_none (knl : LoopKernel) (fb : List String → List Int × List Nat) :
    ∀ (l : List Instruction), (∀ j ∈ l, j.temp_var_type = none) →
      ∀ (rest acc : List Instruction) (temps : List (String × TemporaryVariable)),
        createTempsLoop knl fb (l ++ rest) acc temps
          = createTempsLoop knl fb rest (acc ++ l) temps := by
  intro l
  induction l with
  | nil =>
    intro _ rest acc temps
    simp
  | cons j l ih =>
    intro h rest acc temps
    have hj := h j (by simp)
    have step : createTempsLoop knl fb (j :: (l ++ rest)) acc temps
        = createTempsLoop knl fb (l ++ rest) (acc ++ [j]) temps := by
      simp [createTempsLoop, hj]
    rw [List.cons_append, step, ih (fun j2 h2 => h j2 (by simp [h2]))]
    simp

theorem createTempsLoop_none_ok (knl : LoopKernel) (fb : List String → List Int × List Nat)
    (l : List Instruction) (h : ∀ j ∈ l, j.temp_var_type = none)
    (acc : List Instruction) (temps : List (String × TemporaryVariable)) :
    createTempsLoop knl fb l acc temps = .ok (acc ++ l, temps) := by
  have h2 := createTempsLoop_none knl fb l h [] acc temps
  rw [List.append_nil] at h2
  rw [h2]
  rfl

theorem createTempsLoop_cons_typed (knl : LoopKernel)
    (fb : List String → List Int × List Nat) (insn : Instruction)
    (rest acc : List Instruction) (temps : List (String × TemporaryVariable))
    (dt : TempDType) (nm : String)
    (htyped : insn.temp_var_type = some dt)
    (hname : getAssigneeVarName insn.assignee = some nm) :
    createTempsLoop knl fb (insn :: rest) acc temps
      = (do
          let assignee_indices ←
            checkIndices knl.all_inames nm (getAssigneeIndices insn.assignee)
          let bs := fb assignee_indices
          if (alookup temps nm).isSome then
            Except.error (Err.temp_already_exists nm)
          else if (knl.args.map (fun a => a.name)).contains nm then
            Except.error (Err.temp_already_exists_as_arg nm)
          else
            createTempsLoop knl fb rest
              (acc ++ [{ insn with temp_var_type := none }])
              (aset temps nm ⟨nm, dt, none, bs.1, bs.2⟩)) := by
  simp [createTempsLoop, htyped, hname]

/-- C6: for a kernel whose instruction list contains exactly one
declaring instruction (a declared, possibly deferred, temporary type),
the synthesis pass fails whenever some left-hand-side index is not a
plain variable naming an existing loop index, or the assignee name
already exists as a temporary, or as an argument; and when none of
these hold it succeeds, adding exactly the one temporary for the
assignee (with the base indexes and shape delivered by the bound
collaborator) and clearing the declared-type marker of the rewritten
instruction, all other instructions passing through unchanged. -/
theorem create_temporaries_characterization (knl : LoopKernel)
    (fb : List String → List Int × List Nat) (pre post : List Instruction)
    (insn : Instruction) (dt : TempDType) (nm : String)
    (hinsns : knl.instructions = pre ++ insn :: post)
    (hpre : ∀ j ∈ pre, j.temp_var_type = none)
    (hpost : ∀ j ∈ post, j.temp_var_type = none)
    (htyped : insn.temp_var_type = some dt)
    (hname : getAssigneeVarName insn.assignee = some nm) :
    (((∃ ix ∈ getAssigneeIndices insn.assignee, invalidLvalueIndex knl.all_inames ix = true)
        ∨ (alookup knl.temporary_variables nm).isSome = true
        ∨ (knl.args.map (fun a => a.name)).contains nm = true) →
      ∃ e, create_temporaries knl fb = .error e)
    ∧ ((∀ ix ∈ getAssigneeIndices insn.assignee, invalidLvalueIndex knl.all_inames ix = false) →
      alookup knl.temporary_variables nm = none →
      (knl.args.map (fun a => a.name)).contains nm = false →
      create_temporaries knl fb = .ok { knl with
        instructions := pre ++ { insn with temp_var_type := none } :: post,
        temporary_variables := knl.temporary_variables
          ++ [(nm, ⟨nm, dt, none,
              (fb (lvalueIndexNames (getAssigneeIndices insn.assignee))).1,
              (fb (lvalueIndexNames (getAssigneeIndices insn.assignee))).2⟩)] }) := by
  have hloop : createTempsLoop knl fb knl.instructions [] knl.temporary_variables
      = createTempsLoop knl fb (insn :: post) pre knl.temporary_variables := by
    rw [hinsns, createTempsLoop_none knl fb pre hpre (insn :: post) [] knl.temporary_variables]
    simp
  have hstep := createTempsLoop_cons_typed knl fb insn post pre knl.temporary_variables
    dt nm htyped hname
  constructor
  · intro hdisj
    unfold create_temporaries
    rw [hloop, hstep]
    cases hci : checkIndices knl.all_inames nm (getAssigneeIndices insn.assignee) with
    | error e =>
      exact ⟨e, by simp [hci, Bind.bind, Except.bind]⟩
    | ok names =>
      cases hsome : (alookup knl.temporary_variables nm).isSome with
      | true =>
        exact ⟨.temp_already_exists nm, by simp [hci, hsome, Bind.bind, Except.bind]⟩
      | false =>
        cases hcont : (knl.args.map (fun a => a.name)).contains nm with
        | true =>
          exact ⟨.temp_already_exists_as_arg nm,
            by simp [hci, hsome, hcont, Bind.bind, Except.bind]⟩
        | false =>
          exfalso
          rcases hdisj with hbad | hs | hc
          · rw [checkIndices_err knl.all_inames nm _ hbad] at hci
            cases hci
          · rw [hsome] at hs
            cases hs
          · rw [hcont] at hc
            cases hc
  · intro hvalid hnone hncont
    unfold create_temporaries
    rw [hloop, hstep, checkIndices_ok knl.all_inames nm _ hvalid]
    have hsome : (alookup knl.temporary_variables nm).isSome = false := by
      rw [hnone]
      rfl
    simp only [Bind.bind, Except.bind, hsome, Bool.false_eq_true, if_false, hncont]
    rw [aset_append_of_none knl.temporary_variables nm _ hnone]
    rw [createTempsLoop_none_ok knl fb post hpost]
    simp

/-- The kernel of the synthesis witness: one instruction declares the
deferred-typed temporary t indexed by the loop index i. -/
def declTempK : LoopKernel where
  domains := [⟨[some "i"], []⟩]
  instructions := [⟨some "a", [], [], Expr.subscript (Expr.var "t") (Expr.var "i"),
    Expr.lit 1, some TempDType.infer, 0⟩]
  args := [⟨"x"⟩]
  temporary_variables := []
  substitutions := []
  iname_to_tag := []

/-- Witness: temporary synthesis succeeds on the concrete declaring
kernel, creating the temporary and clearing the marker. -/
theorem create_temporaries_characterization_witness :
    create_temporaries declTempK anyFindBase = .ok { declTempK with
      instructions := [⟨some "a", [], [], Expr.subscript (Expr.var "t") (Expr.var "i"),
        Expr.lit 1, none, 0⟩],
      temporary_variables := [("t", ⟨"t", TempDType.infer, none,
        (anyFindBase ["i"]).1, (anyFindBase ["i"]).2⟩)] } :=
  (create_temporaries_characterization declTempK anyFindBase [] []
      ⟨some "a", [], [], Expr.subscript (Expr.var "t") (Expr.var "i"),
        Expr.lit 1, some TempDType.infer, 0⟩ TempDType.infer "t" rfl (by simp) (by simp)
      rfl rfl).2 (by decide) rfl rfl

/-! ## Theorems: common-subexpression flattening (claim C3) -/

/-- Expressions containing no tagged common-subexpression node. -/
def cseFree : Expr → Bool
  | .var _ => true
  | .lit _ => true
  | .add a b => cseFree a && cseFree b
  | .mul a b => cseFree a && cseFree b
  | .subscript a b => cseFree a && cseFree b
  | .tup a b => cseFree a && cseFree b
  | .reduction _ _ body => cseFree body
  | .cse _ _ _ => false

theorem cseMap_id (knl : LoopKernel) : ∀ (e : Expr), cseFree e = true →
    ∀ s, cseMap knl e s = (e, s) := by
  intro e
  induction e with
  | var n =>
    intro _ s
    rfl
  | lit n =>
    intro _ s
    rfl
  | add a b iha ihb =>
    intro h s
    simp only [cseFree, Bool.and_eq_true] at h
    simp [cseMap, iha h.1, ihb h.2]
  | mul a b iha ihb =>
    intro h s
    simp only [cseFree, Bool.and_eq_true] at h
    simp [cseMap, iha h.1, ihb h.2]
  | subscript a b iha ihb =>
    intro h s
    simp only [cseFree, Bool.and_eq_true] at h
    simp [cseMap, iha h.1, ihb h.2]
  | tup a b iha ihb =>
    intro h s
    simp only [cseFree, Bool.and_eq_true] at h
    simp [cseMap, iha h.1, ihb h.2]
  | reduction op inames body ih =>
    intro h s
    simp only [cseFree] at h
    simp [cseMap, ih h]
  | cse c p d ih =>
    intro h
    simp [cseFree] at h

theorem cseMap_add (knl : LoopKernel) (a b : Expr) (s : CSEState) :
    cseMap knl (.add a b) s
      = (.add (cseMap knl a s).1 (cseMap knl b (cseMap knl a s).2).1,
         (cseMap knl b (cseMap knl a s).2).2) := rfl

theorem cseMap_cse_hit (knl : LoopKernel) (e : Expr) (p d : Option String) (s : CSEState)
    (v : Expr) (hmemo : alookup s.memo e = some v) :
    cseMap knl (.cse e p d) s = (v, s) := by
  unfold cseMap
  rw [hmemo]

theorem cseMap_cse_fresh (knl : LoopKernel) (e : Expr) (p d : Option String) (s : CSEState)
    (hmemo : alookup s.memo e = none) (hfree : cseFree e = true) (hnv : e.isVar = false) :
    cseMap knl (.cse e p d) s
      = (.var (cseAddAssignment knl p e d s).1,
         { (cseAddAssignment knl p e d s).2 with
            memo := aset (cseAddAssignment knl p e d s).2.memo e
              (.var (cseAddAssignment knl p e d s).1) }) := by
  unfold cseMap
  rw [hmemo, cseMap_id knl e hfree]
  simp [hnv]

/-- The kernel of the bare-variable counterexample: both tagged nodes
wrap the plain variable x. -/
def bareCseK : LoopKernel where
  domains := []
  instructions := [⟨some "a", [], [], Expr.var "y",
    Expr.add (Expr.cse (Expr.var "x") none none) (Expr.cse (Expr.var "x") none none), none, 0⟩]
  args := [⟨"x"⟩, ⟨"y"⟩]
  temporary_variables := []
  substitutions := []
  iname_to_tag := []

/-- C3 counterexample: a kernel whose instruction holds two structurally
identical tagged common-subexpression nodes, their identical untagged
inner expression being the bare variable x, is flattened with no new
temporary and no new instruction at all: both occurrences are replaced
by the variable itself, refuting the claimed creation of exactly one
temporary and one instruction for every such kernel. -/
theorem cse_bare_variable_no_temporary :
    expand_cses bareCseK = { bareCseK with instructions := [⟨some "a", [], [], Expr.var "y",
      Expr.add (Expr.var "x") (Expr.var "x"), none, 0⟩] }
    ∧ (expand_cses bareCseK).temporary_variables = bareCseK.temporary_variables
    ∧ (expand_cses bareCseK).instructions.length = bareCseK.instructions.length :=
  ⟨by decide, by decide, by decide⟩

/-- C3 (amended): for a kernel whose single instruction holds two
structurally identical tagged common-subexpression nodes whose
identical untagged inner expression is not a bare variable reference
(and contains no further tagged nodes), the flattening pass creates
exactly one new temporary variable and exactly one new assignment
instruction computing the inner expression into it, and both
occurrences are replaced by references to that same temporary. -/
theorem cse_sharing_single_temporary (knl : LoopKernel) (insn : Instruction) (e : Expr)
    (p1 p2 d1 d2 : Option String)
    (hinsns : knl.instructions = [insn])
    (hexpr : insn.expression = .add (.cse e p1 d1) (.cse e p2 d2))
    (hfree : cseFree e = true) (hnv : e.isVar = false) :
    ∃ (vn : String) (tv : TemporaryVariable) (newInsn : Instruction),
      vn ∉ akeys knl.temporary_variables
      ∧ expand_cses knl = { knl with
          instructions := [newInsn, { insn with expression := .add (.var vn) (.var vn) }],
          temporary_variables := knl.temporary_variables ++ [(vn, tv)] }
      ∧ newInsn.assignee = .var vn ∧ newInsn.expression = e
      ∧ (expand_cses knl).instructions.length = knl.instructions.length + 1
      ∧ akeys (expand_cses knl).temporary_variables
          = akeys knl.temporary_variables ++ [vn] := by
  set s0 : CSEState := ⟨kernelUsedNames knl, knl.temporary_variables, [], [], []⟩ with hs0def
  set vn : String := freshName (kernelUsedNames knl) (p1.getD "var") with hvndef
  have hvn : vn ∉ kernelUsedNames knl := freshName_not_mem _ _
  have hvnk : vn ∉ akeys knl.temporary_variables := by
    intro hmem
    exact hvn (by simp [kernelUsedNames, hmem])
  have hnone : alookup knl.temporary_variables vn = none :=
    (alookup_eq_none_iff _ _).mpr hvnk
  set newId : String := makeUniqueInstructionId knl [] with hiddef
  set newInsn : Instruction := ⟨some newId, [], [], .var vn, e, none, 0⟩ with hnidef
  set tv : TemporaryVariable := ⟨vn, cseDtype d1, none, [], []⟩ with htvdef
  set s1 : CSEState := ⟨kernelUsedNames knl ++ [vn], aset knl.temporary_variables vn tv,
    [newInsn], [newId], [(e, .var vn)]⟩ with hs1def
  have h1 : cseMap knl (.cse e p1 d1) s0 = (.var vn, s1) :=
    (cseMap_cse_fresh knl e p1 d1 s0 rfl hfree hnv).trans rfl
  have h2 : cseMap knl (.cse e p2 d2) s1 = (.var vn, s1) := by
    refine cseMap_cse_hit knl e p2 d2 s1 (.var vn) ?_
    show alookup [(e, Expr.var vn)] e = some (.var vn)
    simp [alookup]
  have hadd : cseMap knl (.add (.cse e p1 d1) (.cse e p2 d2)) s0
      = (.add (.var vn) (.var vn), s1) := by
    rw [cseMap_add, h1]
    dsimp only
    rw [h2]
  have hloop : expandCsesLoop knl [insn] s0
      = { s1 with new_insns := s1.new_insns
          ++ [{ insn with expression := .add (.var vn) (.var vn) }] } := by
    have hd : expandCsesLoop knl [insn] s0
        = { (cseMap knl insn.expression s0).2 with
            new_insns := (cseMap knl insn.expression s0).2.new_insns
              ++ [{ insn with expression := (cseMap knl insn.expression s0).1 }] } := rfl
    rw [hd, hexpr, hadd]
  have hmain : expand_cses knl = { knl with
      instructions := [newInsn, { insn with expression := .add (.var vn) (.var vn) }],
      temporary_variables := knl.temporary_variables ++ [(vn, tv)] } := by
    unfold expand_cses
    rw [hinsns,
      show (⟨kernelUsedNames knl, knl.temporary_variables, [], [], []⟩ : CSEState) = s0
        from rfl]
    dsimp only
    rw [hloop, hs1def]
    dsimp only
    rw [aset_append_of_none knl.temporary_variables vn tv hnone]
    try rfl
  refine ⟨vn, tv, newInsn, hvnk, hmain, rfl, rfl, ?_, ?_⟩
  · rw [hmain, hinsns]
    rfl
  · rw [hmain]
    simp [akeys]

/-- The kernel of the sharing witness: two identical tagged nodes over
the sum of x and one, with different prefix hints. -/
def sharedCseK : LoopKernel where
  domains := []
  instructions := [⟨some "a", [], [], Expr.var "y",
    Expr.add (Expr.cse (Expr.add (Expr.var "x") (Expr.lit 1)) none none)
      (Expr.cse (Expr.add (Expr.var "x") (Expr.lit 1)) (some "p") none), none, 0⟩]
  args := [⟨"x"⟩, ⟨"y"⟩]
  temporary_variables := []
  substitutions := []
  iname_to_tag := []

/-- Witness: the sharing theorem applies to the concrete kernel with a
non-variable inner expression. -/
theorem cse_sharing_single_temporary_witness :
    ∃ (vn : String) (tv : TemporaryVariable) (newInsn : Instruction),
      vn ∉ akeys sharedCseK.temporary_variables
      ∧ expand_cses sharedCseK = { sharedCseK with
          instructions := [newInsn,
            ⟨some "a", [], [], Expr.var "y",
              Expr.add (Expr.var vn) (Expr.var vn), none, 0⟩],
          temporary_variables := sharedCseK.temporary_variables ++ [(vn, tv)] }
      ∧ newInsn.assignee = .var vn
      ∧ newInsn.expression = Expr.add (Expr.var "x") (Expr.lit 1)
      ∧ (expand_cses sharedCseK).instructions.length
          = sharedCseK.instructions.length + 1
      ∧ akeys (expand_cses sharedCseK).temporary_variables
          = akeys sharedCseK.temporary_variables ++ [vn] :=
  cse_sharing_single_temporary sharedCseK
    ⟨some "a", [], [], Expr.var "y",
      Expr.add (Expr.cse (Expr.add (Expr.var "x") (Expr.lit 1)) none none)
        (Expr.cse (Expr.add (Expr.var "x") (Expr.lit 1)) (some "p") none), none, 0⟩
    (Expr.add (Expr.var "x") (Expr.lit 1)) none (some "p") none none
    rfl rfl (by decide) (by decide)

/-! ## Theorems: domain parsing (claim C5) -/

/-- The flattened loop-index names of a parsed domain list. -/
def kernelDimNames (doms : List BasicSetModel) : List String :=
  doms.flatMap (fun d => d.dim_names.filterMap id)

/-- The empty macro table. -/
def emptyDefines : String → Option MacroVal := fun _ => none

theorem checkDims_ok : ∀ (dims : List (Option String)) (used : List String) (i : Nat)
    (l : List String), checkDims used dims i = .ok l →
    dims.filterMap id = l ∧ (used.Nodup → (used ++ l).Nodup) := by
  intro dims
  induction dims with
  | nil =>
    intro used i l h
    simp only [checkDims] at h
    cases h
    exact ⟨rfl, fun hn => by simpa using hn⟩
  | cons d rest ih =>
    intro used i l h
    cases d with
    | none =>
      simp only [checkDims] at h
      cases h
    | some n =>
      simp only [checkDims] at h
      by_cases hc : used.contains n = true
      · rw [if_pos hc] at h
        cases h
      · rw [if_neg hc] at h
        cases hrec : checkDims (used ++ [n]) rest (i + 1) with
        | error e =>
          rw [hrec] at h
          cases h
        | ok more =>
          rw [hrec] at h
          simp only [Bind.bind, Except.bind, Except.ok.injEq] at h
          obtain ⟨h1, h2⟩ := ih (used ++ [n]) (i + 1) more hrec
          subst h
          constructor
          · simp [List.filterMap_cons, h1]
          · intro hn
            have hnotmem : n ∉ used := by simpa using hc
            have hn2 : (used ++ [n]).Nodup := by
              simp [List.nodup_append, hn, hnotmem]
            have := h2 hn2
            simpa [List.append_assoc] using this

theorem kernelDimNames_append (a b : List BasicSetModel) :
    kernelDimNames (a ++ b) = kernelDimNames a ++ kernelDimNames b := by
  simp [kernelDimNames]

theorem parseDomainsLoop_nodup (defines : String → Option MacroVal) :
    ∀ (doms : List DomainInput) (available used : List String)
      (res0 res : List BasicSetModel),
      parseDomainsLoop defines doms available used res0 = .ok res →
      used.Nodup → used = kernelDimNames res0 →
      (kernelDimNames res).Nodup := by
  intro doms
  induction doms with
  | nil =>
    intro available used res0 res h hnd hused
    simp only [parseDomainsLoop] at h
    cases h
    rw [← hused]
    exact hnd
  | cons dom rest ih =>
    intro available used res0 res h hnd hused
    simp only [parseDomainsLoop] at h
    cases hres : resolveDomain defines available dom with
    | error e =>
      rw [hres] at h
      cases h
    | ok b =>
      rw [hres] at h
      simp only [Bind.bind, Except.bind] at h
      cases hdims : checkDims used b.dim_names 0 with
      | error e =>
        rw [hdims] at h
        cases h
      | ok inames =>
        rw [hdims] at h
        obtain ⟨hnames, hnodup⟩ := checkDims_ok b.dim_names used 0 inames hdims
        refine ih (available ++ inames) (used ++ inames) (res0 ++ [b]) res h
          (hnodup hnd) ?_
        rw [kernelDimNames_append, hused]
        simp [kernelDimNames, hnames]

/-- C5 counterexample: with pre-built polyhedral sets, an earlier
domain freely carries a later domain loop index among its parameters:
parse_domains accepts the pair without error, refuting that an earlier
domain referencing a later domain loop index must fail. -/
theorem prebuilt_domain_forward_reference_accepted :
    parse_domains [] [.built ⟨[some "i"], ["j"]⟩, .built ⟨[some "j"], []⟩] emptyDefines
      = .ok [⟨[some "i"], ["j"]⟩, ⟨[some "j"], []⟩]
    ∧ "j" ∈ (⟨[some "i"], ["j"]⟩ : BasicSetModel).param_names :=
  ⟨by decide, by decide⟩

/-- C5 (amended): domain parsing processes the list left to right with
an expanding visibility window: whenever parsing succeeds, no domain
redefines the loop index of an earlier domain (all accepted loop-index
names are distinct); a later text domain may reference an earlier
domain loop index, which is synthesized into its parameter list; an
earlier text domain without an explicit parameter list referencing a
later domain loop index fails (the name is not among its synthesized
parameters, so set parsing rejects it); and a text domain whose
dimension name equals an earlier loop index fails with the
redefinition error.  Pre-built sets and text with explicit parameter
lists escape the visibility check, as the counterexample records. -/
theorem domain_window_characterization :
    (∀ (args_and_vars : List String) (domains : List DomainInput)
      (defines : String → Option MacroVal) (res : List BasicSetModel),
      parse_domains args_and_vars domains defines = .ok res →
      (kernelDimNames res).Nodup)
    ∧ parse_domains ["n"] [.text "{ [i] : i < n }", .text "{ [j] : j < i }"] emptyDefines
        = .ok [⟨[some "i"], ["n"]⟩, ⟨[some "j"], ["i"]⟩]
    ∧ parse_domains ["n"] [.text "{ [i] : i < j }", .text "{ [j] : j < n }"] emptyDefines
        = .error (.domain_parse_fail "[] -> { [i] : i < j }")
    ∧ parse_domains ["n"] [.text "{ [i] : i < n }", .text "{ [i] : i < n }"] emptyDefines
        = .error (.redefined_iname "i") := by
  refine ⟨?_, by decide, by decide, by decide⟩
  intro args domains defines res h
  exact parseDomainsLoop_nodup defines domains args [] [] res h (by simp) rfl

/-- Witness: the no-redefinition consequence applied to the concrete
successful two-domain parse. -/
theorem domain_window_characterization_witness :
    (kernelDimNames [⟨[some "i"], ["n"]⟩, ⟨[some "j"], ["i"]⟩]).Nodup :=
  domain_window_characterization.1 ["n"]
    [.text "{ [i] : i < n }", .text "{ [j] : j < i }"] emptyDefines
    [⟨[some "i"], ["n"]⟩, ⟨[some "j"], ["i"]⟩] (by decide)

end Loopy
